import Mathlib

set_option maxRecDepth 40000

/-!
Verification of the ETLJira batch-orchestration and field-normalization engine.

The Python source (src/ETLJira/src) is shallowly embedded here:

* `PyVal` models the Python values flowing through the pipeline (JSON-like
  dictionaries with insertion order, lists, strings, numbers, `None`).
* The functions of `transform/transform.py` (`Transform.transform_issue`,
  `Transform.normalize_field_name`, `Transform.get_correspond_name_by_field_id`,
  `Transform.get_normalized_field_name`, `Transform.rename_customfield`,
  `Transform.get_custom_fields_names`) are translated one-to-one, with Python
  exceptions modelled by `PyErr` and in-place mutation modelled by returning the
  final state of the mutated record.
* `pipeline/pipeline.py`, `extract/extract.py`, `load/load.py` and
  `utils/jira_client.py` are modelled as trace-producing functions over an
  abstract remote server (`JiraServer`): every remote call and every file write
  appears as an `EtlOp` in the produced trace.
-/

namespace ETLJira

/-- Python values, restricted to the JSON-like shapes the pipeline handles.
Dictionaries are insertion-ordered association lists with string keys, as all
keys occurring in the source are strings. -/
inductive PyVal where
  | none : PyVal
  | str : String → PyVal
  | num : Int → PyVal
  | list : List PyVal → PyVal
  | dict : List (String × PyVal) → PyVal
deriving Repr

/-- Python exceptions raised (or propagated) by the embedded code. -/
inductive PyErr where
  | valueError : String → PyErr
  | attributeError : String → PyErr
  | typeError : String → PyErr
  | keyError : String → PyErr
deriving DecidableEq, Repr

/-- First-match lookup in an insertion-ordered dictionary (`d[k]` / `d.get(k)`). -/
def dlookup (l : List (String × PyVal)) (k : String) : Option PyVal :=
  match l with
  | [] => Option.none
  | (k2, v) :: rest => if k2 = k then some v else dlookup rest k

/-- Key membership in a dictionary (Python `k in d`). -/
def dmem (l : List (String × PyVal)) (k : String) : Bool :=
  (dlookup l k).isSome

/-- Python `d[k] = v`: replace the value in place if the key exists (keeping
its position), otherwise append the new binding at the end. -/
def dset (l : List (String × PyVal)) (k : String) (v : PyVal) : List (String × PyVal) :=
  match l with
  | [] => [(k, v)]
  | (k2, v2) :: rest => if k2 = k then (k, v) :: rest else (k2, v2) :: dset rest k v

/-- Python `d.pop(k)` (the removal part): delete the binding for `k`,
preserving the order of the remaining bindings. -/
def dremove (l : List (String × PyVal)) (k : String) : List (String × PyVal) :=
  match l with
  | [] => []
  | (k2, v2) :: rest => if k2 = k then dremove rest k else (k2, v2) :: dremove rest k

/-- Python `d.get(k, default)` on an arbitrary value: `AttributeError` when the
receiver is not a dictionary. -/
def pyGet (v : PyVal) (k : String) (default : PyVal) : Except PyErr PyVal :=
  match v with
  | .dict d => .ok ((dlookup d k).getD default)
  | _ => .error (.attributeError "get")

/-- Python `v[k]` subscription: `KeyError` for a missing key, `TypeError` when
the receiver is not a dictionary. -/
def dindex (v : PyVal) (k : String) : Except PyErr PyVal :=
  match v with
  | .dict d =>
    match dlookup d k with
    | some x => .ok x
    | Option.none => .error (.keyError k)
  | _ => .error (.typeError "object is not subscriptable")

/-- Python truthiness of a value (`if v:`). -/
def truthy : PyVal → Bool
  | .none => false
  | .str s => ¬ s.isEmpty
  | .num n => ¬ n = 0
  | .list l => ¬ l.isEmpty
  | .dict l => ¬ l.isEmpty

/-- Python `v == s` where `s` is known to be a string: true exactly for the
equal string. -/
def pyEqStr (v : PyVal) (s : String) : Bool :=
  match v with
  | .str t => t = s
  | _ => false

/-- The value is a Python dict. -/
def isDict : PyVal → Bool
  | .dict _ => true
  | _ => false

/-- The value is a Python list. -/
def isList : PyVal → Bool
  | .list _ => true
  | _ => false

/-- The value is a Python string. -/
def isStr : PyVal → Bool
  | .str _ => true
  | _ => false

/-- The value is a dict containing the key `"fields"`. -/
def hasFieldsKey : PyVal → Bool
  | .dict l => dmem l "fields"
  | _ => false

/-! ### Field normalizer (`Transform.normalize_field_name`) -/

/-- Python `\s` (regex whitespace) on the characters relevant here, by code
point: ASCII whitespace and control separators plus the Unicode space
characters. -/
def isPySpace (c : Char) : Bool :=
  c.toNat = 32 || c.toNat = 9 || c.toNat = 10 || c.toNat = 13 ||
  c.toNat = 11 || c.toNat = 12 ||
  (28 ≤ c.toNat && c.toNat ≤ 31) || c.toNat = 133 || c.toNat = 160 ||
  c.toNat = 0x1680 || (0x2000 ≤ c.toNat && c.toNat ≤ 0x200a) ||
  c.toNat = 0x2028 || c.toNat = 0x2029 || c.toNat = 0x202f ||
  c.toNat = 0x205f || c.toNat = 0x3000

/-- Characters of the regex class `[a-zA-Z0-9-]`, by code point
(`a`-`z` is 97-122, `A`-`Z` is 65-90, `0`-`9` is 48-57, `-` is 45). -/
def isWordChar (c : Char) : Bool :=
  (97 ≤ c.toNat && c.toNat ≤ 122) || (65 ≤ c.toNat && c.toNat ≤ 90) ||
  (48 ≤ c.toNat && c.toNat ≤ 57) || c.toNat = 45

/-- Characters of the class `[a-z0-9-]` (the claimed alphabet of normalized
tokens). -/
def isLowerWord (c : Char) : Bool :=
  (97 ≤ c.toNat && c.toNat ≤ 122) || (48 ≤ c.toNat && c.toNat ≤ 57) ||
  c.toNat = 45

/-- Model of `unicodedata.normalize('NFKD', ·)` on one character: NFKD is the
identity on ASCII; on the Latin-1 accented letters it splits off the combining
mark; the model is the identity elsewhere (the proofs only use the ASCII
behavior and the listed decompositions). -/
def nfkdChar (c : Char) : List Char :=
  if c.toNat < 128 then [c]
  else
    match c with
    | 'à' => ['a', Char.ofNat 0x300]
    | 'á' => ['a', Char.ofNat 0x301]
    | 'â' => ['a', Char.ofNat 0x302]
    | 'ä' => ['a', Char.ofNat 0x308]
    | 'ç' => ['c', Char.ofNat 0x327]
    | 'è' => ['e', Char.ofNat 0x300]
    | 'é' => ['e', Char.ofNat 0x301]
    | 'ê' => ['e', Char.ofNat 0x302]
    | 'ë' => ['e', Char.ofNat 0x308]
    | 'î' => ['i', Char.ofNat 0x302]
    | 'ï' => ['i', Char.ofNat 0x308]
    | 'ô' => ['o', Char.ofNat 0x302]
    | 'ö' => ['o', Char.ofNat 0x308]
    | 'ù' => ['u', Char.ofNat 0x300]
    | 'û' => ['u', Char.ofNat 0x302]
    | 'ü' => ['u', Char.ofNat 0x308]
    | 'À' => ['A', Char.ofNat 0x300]
    | 'Â' => ['A', Char.ofNat 0x302]
    | 'Ç' => ['C', Char.ofNat 0x327]
    | 'È' => ['E', Char.ofNat 0x300]
    | 'É' => ['E', Char.ofNat 0x301]
    | 'Ê' => ['E', Char.ofNat 0x302]
    | 'Î' => ['I', Char.ofNat 0x302]
    | 'Ô' => ['O', Char.ofNat 0x302]
    | 'Ù' => ['U', Char.ofNat 0x300]
    | 'Û' => ['U', Char.ofNat 0x302]
    | 'Ü' => ['U', Char.ofNat 0x308]
    | _ => [c]

/-- Model of `unicodedata.normalize('NFKD', s)` over a character list. -/
def nfkd (l : List Char) : List Char :=
  l.flatMap nfkdChar

/-- Model of `unicodedata.combining(c) != 0`: the combining diacritical marks
block U+0300 - U+036F (the only combining marks the model produces). -/
def isCombining (c : Char) : Bool :=
  0x300 ≤ c.toNat && c.toNat ≤ 0x36f

/-- The accent-stripping loop of `normalize_field_name`: keep every character
that is not a combining mark. -/
def stripCombining (l : List Char) : List Char :=
  l.filter (fun c => ¬ isCombining c)

/-- Worker for `re.sub(r'\s+', '-', ·)`: the flag records whether the previous
character was inside a whitespace run (whose first character already emitted
the single `-`). -/
def subWsAux : Bool → List Char → List Char
  | _, [] => []
  | inRun, c :: rest =>
    if isPySpace c then
      if inRun then subWsAux true rest else '-' :: subWsAux true rest
    else c :: subWsAux false rest

/-- `re.sub(r'\s+', '-', ·)`: replace every maximal whitespace run by one `-`. -/
def subWs (l : List Char) : List Char :=
  subWsAux false l

/-- `re.sub(r'[^a-zA-Z0-9\-]', '-', ·)`: a single-character class, so a
character-wise replacement. -/
def subNonWord (l : List Char) : List Char :=
  l.map (fun c => if isWordChar c then c else '-')

/-- `re.sub(r'-+', '-', ·)`: collapse every maximal hyphen run to one hyphen. -/
def collapseHyphens : List Char → List Char
  | [] => []
  | [c] => [c]
  | c :: d :: rest =>
    if c = '-' && d = '-' then collapseHyphens (d :: rest)
    else c :: collapseHyphens (d :: rest)

/-- Python `str.strip('-')`: drop leading and trailing hyphens. -/
def stripHyphen (l : List Char) : List Char :=
  (((l.dropWhile (fun c => c = '-')).reverse.dropWhile (fun c => c = '-'))).reverse

/-- Python `str.lower()` on the characters that survive the regex steps
(ASCII letters, digits and hyphens): map `A`-`Z` to `a`-`z`. -/
def toLowerChar (c : Char) : Char :=
  if 65 ≤ c.toNat && c.toNat ≤ 90 then Char.ofNat (c.toNat + 32) else c

/-- Character-wise lowering of a list. -/
def pyLower (l : List Char) : List Char :=
  l.map toLowerChar

/-- The processing chain of `Transform.normalize_field_name` on the character
list of a non-empty input string: NFKD decomposition, combining-mark removal,
whitespace runs to `-`, characters outside `[a-zA-Z0-9-]` to `-`, hyphen-run
collapse, strip of outer hyphens, lowercase. -/
def normalizeChars (l : List Char) : List Char :=
  pyLower (stripHyphen (collapseHyphens (subNonWord (subWs (stripCombining (nfkd l))))))

/-- `Transform.normalize_field_name`: empty or non-string input degrades to the
empty token, otherwise the chain `normalizeChars` runs on the characters. -/
def normalize_field_name (v : PyVal) : String :=
  match v with
  | .str s => if s.isEmpty then "" else String.mk (normalizeChars s.data)
  | _ => ""

/-! ### Record transformer (`Transform`) -/

/-- The catalog scan inside `Transform.get_correspond_name_by_field_id`: the
first list entry that is a dict whose `"id"` equals the searched identifier
yields its `"name"` (`None` when the entry lacks one); no match yields `None`. -/
def findFieldName (target : String) : List PyVal → PyVal
  | [] => .none
  | f :: rest =>
    match f with
    | .dict d =>
      if pyEqStr ((dlookup d "id").getD .none) target then (dlookup d "name").getD .none
      else findFieldName target rest
    | _ => findFieldName target rest

/-- `Transform.get_correspond_name_by_field_id`: validates that the catalog is
a list and the identifier a string (distinct `ValueError`s otherwise, messages
transliterated from the French source), then scans the catalog. -/
def get_correspond_name_by_field_id (fields_metadata field_name : PyVal) :
    Except PyErr PyVal :=
  match fields_metadata with
  | .list entries =>
    match field_name with
    | .str s => .ok (findFieldName s entries)
    | _ => .error (.valueError "field_id doit etre une chaine de caracteres")
  | _ => .error (.valueError "fields_list doit etre une liste")

/-- `Transform.get_normalized_field_name`: look the display name up, then
normalize it when it is truthy, else return the empty token. -/
def get_normalized_field_name (fields_list field_id : PyVal) : Except PyErr String :=
  match get_correspond_name_by_field_id fields_list field_id with
  | .error e => .error e
  | .ok name => if truthy name then .ok (normalize_field_name name) else .ok ""

/-- Python `s.startswith("customfield_")`. -/
def startsWithCustom (k : String) : Bool :=
  "customfield_".data.isPrefixOf k.data

/-- The keys of a fields dictionary that name dynamic (custom) fields, in
insertion order. -/
def customNames (f : List (String × PyVal)) : List String :=
  (f.map Prod.fst).filter startsWithCustom

/-- `Transform.get_custom_fields_names`: a `ValueError` for a non-dict record
or a missing `"fields"` key, the `AttributeError` of `fields.keys()` when the
`"fields"` value is not a dict, else the custom-prefixed keys in order. -/
def get_custom_fields_names (issue : PyVal) : Except PyErr (List String) :=
  match issue with
  | .dict l =>
    match dlookup l "fields" with
    | some (.dict f) => .ok (customNames f)
    | some _ => .error (.attributeError "keys")
    | Option.none => .error (.valueError "Structure issue Jira invalide")
  | _ => .error (.valueError "Structure issue Jira invalide")

/-- `Transform.rename_customfield`: after its own validation, a missing old
key is a logged no-op; otherwise `fields[new_name] = fields.pop(old_name)`
(pop first, then insert, silently overwriting an existing new key). A
non-dict `"fields"` value, which Python's `in` would reject, is modelled as a
`TypeError` (never reached from `transform_issue`, which has already walked
`fields.keys()`). -/
def rename_customfield (issue : PyVal) (old_name new_name : String) :
    Except PyErr PyVal :=
  match issue with
  | .dict l =>
    match dlookup l "fields" with
    | Option.none => .error (.valueError "issue doit contenir la cle fields")
    | some (.dict f) =>
      if ¬ dmem f old_name then .ok issue
      else
        .ok (.dict (dset l "fields"
          (.dict (dset (dremove f old_name) new_name ((dlookup f old_name).getD .none)))))
    | some _ => .error (.typeError "argument of type is not iterable")
  | _ => .error (.valueError "issue doit etre un dictionnaire")

/-- The rename loop of `Transform.transform_issue`: for each discovered custom
field name in order, compute the normalized target and rename when the target
is truthy and differs from the identifier. The pair returns the final state of
the (in Python, mutated in place) record together with the raised exception,
if any: a raise leaves the record in its state at that moment. -/
def transformLoop (md : PyVal) : PyVal → List String → PyVal × Option PyErr
  | issue, [] => (issue, Option.none)
  | issue, nm :: rest =>
    match get_normalized_field_name md (.str nm) with
    | .error e => (issue, some e)
    | .ok newName =>
      if ¬ newName = "" && ¬ newName = nm then
        match rename_customfield issue nm newName with
        | .error e => (issue, some e)
        | .ok issue2 => transformLoop md issue2 rest
      else transformLoop md issue rest

/-- `Transform.transform_issue`: the three validations (record is a dict,
record has a `"fields"` key, catalog is a list -- each a distinct
`ValueError`), then the discovery of custom field names, then the rename loop.
The result pairs the final state of the record with the raised exception, if
any. -/
def transform_issue (issue fields_metadata : PyVal) : PyVal × Option PyErr :=
  match issue with
  | .dict l =>
    if dmem l "fields" then
      match fields_metadata with
      | .list _ =>
        match get_custom_fields_names issue with
        | .error e => (issue, some e)
        | .ok names => transformLoop fields_metadata issue names
      | _ => (issue, some (.valueError "fields_metadata doit etre une liste"))
    else (issue, some (.valueError "issue doit contenir la cle fields"))
  | _ => (issue, some (.valueError "issue doit etre un dictionnaire"))

/-- The rename target `transform_issue` computes for an identifier against a
catalog: the normalized display name when the lookup hit is truthy, else the
empty token (the pure content of `get_normalized_field_name` once the
validations are known to pass). -/
def normTarget (entries : List PyVal) (nm : String) : String :=
  if truthy (findFieldName nm entries) then normalize_field_name (findFieldName nm entries)
  else ""

/-- The rename guard of the loop in `transform_issue`: the target is non-empty
and differs from the identifier. -/
def fireB (entries : List PyVal) (nm : String) : Bool :=
  ¬ normTarget entries nm = "" && ¬ normTarget entries nm = nm

/-- The action of the rename loop on the fields dictionary alone: for each
identifier in order, when the guard fires and the key is present, pop it and
insert its value under the target. -/
def loopFields (entries : List PyVal) (f : List (String × PyVal)) :
    List String → List (String × PyVal)
  | [] => f
  | nm :: rest =>
    if fireB entries nm then
      match dlookup f nm with
      | some v => loopFields entries (dset (dremove f nm) (normTarget entries nm) v) rest
      | Option.none => loopFields entries f rest
    else loopFields entries f rest

/-- The identifier fires and its rename target is `t`. -/
def targetsTo (entries : List PyVal) (t nm : String) : Bool :=
  fireB entries nm && normTarget entries nm = t

/-- The last identifier in the list that fires with target `t`, if any —
with last-write-wins renaming this is the one whose value survives at `t`. -/
def lastFirer (entries : List PyVal) (t : String) (names : List String) : Option String :=
  names.reverse.find? (targetsTo entries t)

/-! ### Remote server, client, load and pipeline
(`utils/jira_client.py`, `extract/extract.py`, `load/load.py`,
`pipeline/pipeline.py`) -/

/-- The configuration values the orchestration consumes (`utils/config.py`):
`BATCH_SIZE` is the page size (`int(config.BATCH_SIZE)`). -/
structure EtlConfig where
  BATCH_SIZE : Nat
deriving Repr

/-- The remote Jira instance as seen through the client: the full ordered
issue list of the project (the search API serves `issues[startAt :
startAt+maxResults]` and reports `total = issues.length`), the field-metadata
document, and an oracle saying whether downloading a given attachment URL
succeeds (fetch plus file write). -/
structure JiraServer where
  issues : List PyVal
  metadata : PyVal
  attachmentOk : String → Bool

/-- Observable operations of one run: remote calls and file writes, used to
state how often the catalog is fetched, which pages are requested, and what
lands on disk. -/
inductive EtlOp where
  | countTotal
  | fetchMeta
  | fetchPage (startAt maxResults : Nat)
  | attemptAttachment (issueKey url : String)
  | wroteAttachment (issueKey filename : String)
  | logAttachmentFailure (issueKey filename : String)
  | wroteJson (issueKey : String)
  | logNoAttachments (issueKey : String)
deriving DecidableEq, Repr

/-- `JiraClient.countTotalIussues`: the `total` of a zero-size search. -/
def countTotalIussues (srv : JiraServer) : Nat :=
  srv.issues.length

/-- The issue slice served by `JiraClient.getBatchIssues(start, maxResults)`
(the `issues` array of the response). -/
def batchSlice (srv : JiraServer) (start maxResults : Nat) : List PyVal :=
  (srv.issues.drop start).take maxResults

/-- `JiraClient.download_attachments`: one pass over the descriptors. The
subscriptions `attachment["content"]` and `attachment["filename"]` sit outside
the `try` and so propagate; everything inside the `try` (the HTTP fetch and the
file write) is caught and logged, so a failed download never stops the loop.
A well-formed descriptor emits an attempt and then either a write or a logged
failure; a descriptor whose url or filename is not a string fails inside the
`try` (`session.get` / `os.path.join`) and is likewise only logged. -/
def download_attachments (srv : JiraServer) (issueKey : String) :
    List PyVal → List EtlOp × Option PyErr
  | [] => ([], Option.none)
  | att :: rest =>
    match dindex att "content" with
    | .error e => ([], some e)
    | .ok url =>
      match dindex att "filename" with
      | .error e => ([], some e)
      | .ok nameV =>
        let thisOps :=
          match url, nameV with
          | .str u, .str n =>
            if srv.attachmentOk u then
              [EtlOp.attemptAttachment issueKey u, EtlOp.wroteAttachment issueKey n]
            else
              [EtlOp.attemptAttachment issueKey u, EtlOp.logAttachmentFailure issueKey n]
          | _, _ => [EtlOp.logAttachmentFailure issueKey ""]
        let tailRes := download_attachments srv issueKey rest
        (thisOps ++ tailRes.1, tailRes.2)

/-- `Load.save_issue`: read the key (`issue.get('key')`; a non-string key
makes `os.path.join` raise before anything is written), create the folder and
write the JSON document, then read `issue.get("fields", {}).get("attachment",
[])` and, when truthy, download the attachments (a non-list truthy value would
fail iteration). -/
def save_issue (srv : JiraServer) (issue : PyVal) : List EtlOp × Option PyErr :=
  match issue with
  | .dict l =>
    match (dlookup l "key").getD .none with
    | .str key =>
      let jsonOps := [EtlOp.wroteJson key]
      match pyGet ((dlookup l "fields").getD (.dict [])) "attachment" (.list []) with
      | .error e => (jsonOps, some e)
      | .ok attachments =>
        if truthy attachments then
          match attachments with
          | .list atts =>
            let dRes := download_attachments srv key atts
            (jsonOps ++ dRes.1, dRes.2)
          | _ => (jsonOps, some (.typeError "object is not iterable"))
        else (jsonOps ++ [EtlOp.logNoAttachments key], Option.none)
    | _ => ([], some (.typeError "join argument must be str"))
  | _ => ([], some (.attributeError "get"))

/-- The per-record loop of `Pipeline.run_batch`: transform then store each
record of the page in order; the first exception aborts the rest of the page. -/
def processIssues (srv : JiraServer) (md : PyVal) : List PyVal → List EtlOp × Option PyErr
  | [] => ([], Option.none)
  | issue :: rest =>
    match transform_issue issue md with
    | (_, some e) => ([], some e)
    | (tIssue, Option.none) =>
      let sRes := save_issue srv tIssue
      match sRes.2 with
      | some e => (sRes.1, some e)
      | Option.none =>
        let restRes := processIssues srv md rest
        (sRes.1 ++ restRes.1, restRes.2)

/-- `Pipeline.run_batch` (one page unit): fetch the field metadata catalog,
fetch the page at the given offset with `maxResults = BATCH_SIZE`, then
transform and store each record of the page sequentially. -/
def run_batch (cfg : EtlConfig) (srv : JiraServer) (start : Nat) :
    List EtlOp × Option PyErr :=
  let pRes := processIssues srv srv.metadata (batchSlice srv start cfg.BATCH_SIZE)
  (EtlOp.fetchMeta :: EtlOp.fetchPage start cfg.BATCH_SIZE :: pRes.1, pRes.2)

/-- `math.ceil(total / batchSize)` for a positive batch size. -/
def ceilDiv (total batchSize : Nat) : Nat :=
  (total + batchSize - 1) / batchSize

/-- The page-unit count computed by `Pipeline.run`:
`ceil(countTotalIussues / BATCH_SIZE)`. -/
def iterations (cfg : EtlConfig) (srv : JiraServer) : Nat :=
  ceilDiv (countTotalIussues srv) cfg.BATCH_SIZE

/-- `Pipeline.run`: count the records, compute the page count, submit one page
unit per offset `i * BATCH_SIZE`, and wait on every unit in submission order.
The trace concatenates the units' traces (the worker pool interleaves them;
the claims below only concern each unit's own trace and run-wide operation
counts, which every interleaving preserves); the run's failure is the first
unit failure observed by the `future.result()` loop. -/
def pipeline_run (cfg : EtlConfig) (srv : JiraServer) : List EtlOp × Option PyErr :=
  let units := (List.range (iterations cfg srv)).map
    (fun i => run_batch cfg srv (i * cfg.BATCH_SIZE))
  (EtlOp.countTotal :: (units.map Prod.fst).flatten,
   (units.map Prod.snd).findSome? id)

/-- The operation is a page fetch. -/
def isFetchPage : EtlOp → Bool
  | .fetchPage _ _ => true
  | _ => false

/-- The operation is record-level work (neither a count, a catalog fetch nor a
page fetch). -/
def isPageOp : EtlOp → Bool
  | .countTotal => false
  | .fetchMeta => false
  | .fetchPage _ _ => false
  | _ => true

/-- A minimal well-formed issue used in the worked examples. -/
def demoIssue : PyVal :=
  .dict [("key", .str "K"), ("fields", .dict [])]

/-- A project of 120 such issues with an empty catalog: the spec's worked
`total = 120`, `pageSize = 50` example. -/
def demoServer : JiraServer :=
  { issues := List.replicate 120 demoIssue
    metadata := .list []
    attachmentOk := fun _ => true }

/-- The default page size 50 of the configuration. -/
def demoConfig : EtlConfig :=
  { BATCH_SIZE := 50 }

/-- Hyphens never come out of the two adjacent positions of this relation:
the no-adjacent-hyphens invariant produced by `collapseHyphens`. -/
def NoTwoHyphens (a b : Char) : Prop :=
  ¬ (a = '-' ∧ b = '-')

/-! ### Dictionary lemmas -/

theorem dlookup_dset_self (l : List (String × PyVal)) (k : String) (v : PyVal) :
    dlookup (dset l k v) k = some v := by
  induction l with
  | nil => simp [dset, dlookup]
  | cons p rest ih =>
    obtain ⟨k2, v2⟩ := p
    by_cases h : k2 = k <;> simp [dset, h, dlookup, ih]

theorem dlookup_dset_ne (l : List (String × PyVal)) (k k2 : String) (v : PyVal)
    (h : ¬ k2 = k) : dlookup (dset l k v) k2 = dlookup l k2 := by
  have h2 : ¬ k = k2 := fun hh => h (Eq.symm hh)
  induction l with
  | nil => simp [dset, dlookup, h2]
  | cons p rest ih =>
    obtain ⟨k3, v3⟩ := p
    by_cases h3 : k3 = k
    · subst h3
      simp [dset, dlookup, h2]
    · by_cases h4 : k3 = k2 <;> simp [dset, h3, dlookup, h4, h, ih]

theorem dlookup_dremove_self (l : List (String × PyVal)) (k : String) :
    dlookup (dremove l k) k = Option.none := by
  induction l with
  | nil => rfl
  | cons p rest ih =>
    obtain ⟨k2, v2⟩ := p
    by_cases h : k2 = k <;> simp [dremove, h, dlookup, ih]

theorem dlookup_dremove_ne (l : List (String × PyVal)) (k k2 : String)
    (h : ¬ k2 = k) : dlookup (dremove l k) k2 = dlookup l k2 := by
  have h2 : ¬ k = k2 := fun hh => h (Eq.symm hh)
  induction l with
  | nil => rfl
  | cons p rest ih =>
    obtain ⟨k3, v3⟩ := p
    by_cases h3 : k3 = k
    · subst h3
      simp [dremove, dlookup, h2, ih]
    · by_cases h4 : k3 = k2 <;> simp [dremove, h3, dlookup, h4, h, ih]

theorem dmem_iff_mem_keys (l : List (String × PyVal)) (k : String) :
    dmem l k = true ↔ k ∈ l.map Prod.fst := by
  induction l with
  | nil => simp [dmem, dlookup]
  | cons p rest ih =>
    obtain ⟨k2, v2⟩ := p
    by_cases h : k2 = k
    · subst h
      simp [dmem, dlookup]
    · have h2 : ¬ k = k2 := fun hh => h (Eq.symm hh)
      simp only [dmem, dlookup, if_neg h, List.map_cons, List.mem_cons]
      simp only [dmem] at ih
      rw [ih]
      constructor
      · exact fun hh => Or.inr hh
      · rintro (hh | hh)
        · exact absurd hh h2
        · exact hh

theorem dmem_dset (l : List (String × PyVal)) (k k2 : String) (v : PyVal) :
    dmem (dset l k v) k2 = true ↔ (k2 = k ∨ dmem l k2 = true) := by
  by_cases h : k2 = k
  · subst h; simp [dmem, dlookup_dset_self]
  · simp [dmem, dlookup_dset_ne l k k2 v h, h]

theorem dmem_dremove (l : List (String × PyVal)) (k k2 : String) :
    dmem (dremove l k) k2 = true ↔ (¬ k2 = k ∧ dmem l k2 = true) := by
  by_cases h : k2 = k
  · subst h; simp [dmem, dlookup_dremove_self]
  · simp [dmem, dlookup_dremove_ne l k k2 h, h]

/-! ### Normalizer lemmas -/

theorem mem_subNonWord {c : Char} {l : List Char} (h : c ∈ subNonWord l) :
    isWordChar c = true := by
  unfold subNonWord at h
  obtain ⟨d, _, hd⟩ := List.mem_map.mp h
  by_cases hw : isWordChar d
  · rw [if_pos hw] at hd; rwa [hd] at hw
  · rw [if_neg hw] at hd; rw [← hd]; decide

theorem head?_collapseHyphens (l : List Char) (d : Char) :
    (collapseHyphens (d :: l)).head? = some d := by
  induction l generalizing d with
  | nil => rfl
  | cons e rest ih =>
    unfold collapseHyphens
    by_cases h : d = '-' && e = '-'
    · rw [if_pos h]
      rw [ih e]
      have h1 : d = '-' := by revert h; simp_all
      have h2 : e = '-' := by revert h; simp_all
      rw [h1, h2]
    · rw [if_neg h]
      rfl

theorem chain'_collapseHyphens (l : List Char) :
    List.Chain' NoTwoHyphens (collapseHyphens l) := by
  match l with
  | [] => exact List.chain'_nil
  | [c] => exact List.chain'_singleton c
  | c :: d :: rest =>
    have ih := chain'_collapseHyphens (d :: rest)
    unfold collapseHyphens
    by_cases h : c = '-' && d = '-'
    · rwa [if_pos h]
    · rw [if_neg h]
      rw [List.chain'_cons']
      refine ⟨?_, ih⟩
      intro y hy
      rw [head?_collapseHyphens rest d] at hy
      simp only [Option.mem_def, Option.some.injEq] at hy
      subst hy
      intro ⟨hc, hd⟩
      exact h (by rw [hc, hd]; rfl)

theorem collapseHyphens_eq_self {l : List Char}
    (h : List.Chain' NoTwoHyphens l) : collapseHyphens l = l := by
  match l with
  | [] => rfl
  | [c] => rfl
  | c :: d :: rest =>
    have hcd : NoTwoHyphens c d := (List.chain'_cons.mp h).1
    have ih := collapseHyphens_eq_self
      (show List.Chain' NoTwoHyphens (d :: rest) from (List.chain'_cons.mp h).2)
    unfold collapseHyphens
    rw [if_neg (by simpa [NoTwoHyphens] using hcd)]
    rw [ih]

theorem mem_collapseHyphens {c : Char} {l : List Char}
    (h : c ∈ collapseHyphens l) : c ∈ l := by
  match l with
  | [] => exact absurd h (by simp [collapseHyphens])
  | [d] => simpa [collapseHyphens] using h
  | d :: e :: rest =>
    unfold collapseHyphens at h
    by_cases hde : d = '-' && e = '-'
    · rw [if_pos hde] at h
      exact List.mem_cons_of_mem d (mem_collapseHyphens h)
    · rw [if_neg hde] at h
      rcases List.mem_cons.mp h with h1 | h1
      · exact h1 ▸ List.mem_cons_self c (e :: rest)
      · exact List.mem_cons_of_mem d (mem_collapseHyphens h1)

theorem subWsAux_eq_self {l : List Char} (h : ∀ c ∈ l, isPySpace c = false)
    (b : Bool) : subWsAux b l = l := by
  induction l generalizing b with
  | nil => rfl
  | cons c rest ih =>
    unfold subWsAux
    rw [if_neg (by simp [h c (List.mem_cons_self c rest)])]
    rw [ih (fun d hd => h d (List.mem_cons_of_mem c hd)) false]

theorem mem_subWsAux {c : Char} {b : Bool} {l : List Char}
    (h : c ∈ subWsAux b l) : c ∈ l ∨ c = '-' := by
  induction l generalizing b with
  | nil => exact absurd h (by simp [subWsAux])
  | cons d rest ih =>
    unfold subWsAux at h
    by_cases hd : isPySpace d
    · rw [if_pos hd] at h
      by_cases hb : b
      · subst hb
        rw [if_pos rfl] at h
        rcases ih h with h1 | h1
        · exact Or.inl (List.mem_cons_of_mem d h1)
        · exact Or.inr h1
      · simp only [hb, if_false] at h
        rcases List.mem_cons.mp h with h1 | h1
        · exact Or.inr h1
        · rcases ih h1 with h2 | h2
          · exact Or.inl (List.mem_cons_of_mem d h2)
          · exact Or.inr h2
    · rw [if_neg hd] at h
      rcases List.mem_cons.mp h with h1 | h1
      · exact Or.inl (h1 ▸ List.mem_cons_self c rest)
      · rcases ih h1 with h2 | h2
        · exact Or.inl (List.mem_cons_of_mem d h2)
        · exact Or.inr h2

theorem head?_dropWhile_false {p : Char → Bool} {l : List Char} {a : Char}
    (h : (l.dropWhile p).head? = some a) : p a = false := by
  induction l with
  | nil => exact absurd h (by simp)
  | cons c rest ih =>
    by_cases hc : p c
    · rw [List.dropWhile_cons_of_pos hc] at h
      exact ih h
    · rw [List.dropWhile_cons_of_neg hc] at h
      simp only [List.head?_cons, Option.some.injEq] at h
      rw [← h]
      exact Bool.eq_false_iff.mpr hc

theorem dropWhile_eq_self_of_head {p : Char → Bool} {l : List Char}
    (h : ∀ a ∈ l.head?, p a = false) : l.dropWhile p = l := by
  cases l with
  | nil => rfl
  | cons c rest =>
    exact List.dropWhile_cons_of_neg (by simp [h c rfl])

theorem mem_stripHyphen {c : Char} {l : List Char} (h : c ∈ stripHyphen l) :
    c ∈ l := by
  unfold stripHyphen at h
  rw [List.mem_reverse] at h
  have h1 := (List.dropWhile_suffix (l := (l.dropWhile (fun c => c = '-')).reverse)
    (fun c => c = '-')).mem h
  rw [List.mem_reverse] at h1
  exact (List.dropWhile_suffix (fun c => c = '-')).mem h1

theorem head?_stripHyphen {l : List Char} {a : Char}
    (h : a ∈ (stripHyphen l).head?) : ¬ a = '-' := by
  unfold stripHyphen at h
  rw [List.head?_reverse] at h
  set A := l.dropWhile (fun c => c = '-') with hA
  set C := A.reverse.dropWhile (fun c => c = '-') with hC
  rcases hCe : C with _ | ⟨c0, Cr⟩
  · rw [hCe] at h
    exact absurd h (by simp)
  · have hsuf : C <:+ A.reverse := hC ▸ List.dropWhile_suffix _
    obtain ⟨pre, hpre⟩ := hsuf
    have hgl : C.getLast? = A.reverse.getLast? := by
      rw [← hpre, List.getLast?_append_of_ne_nil pre (by rw [hCe]; simp)]
    rw [hCe] at hgl
    rw [hCe, hgl, List.getLast?_reverse] at h
    have := head?_dropWhile_false (p := fun c => c = '-') (Option.mem_def.mp h)
    simpa using this

theorem getLast?_stripHyphen {l : List Char} {a : Char}
    (h : a ∈ (stripHyphen l).getLast?) : ¬ a = '-' := by
  unfold stripHyphen at h
  rw [List.getLast?_reverse] at h
  have := head?_dropWhile_false (p := fun c => c = '-') (Option.mem_def.mp h)
  simpa using this

theorem stripHyphen_eq_self {l : List Char}
    (h1 : ∀ a ∈ l.head?, ¬ a = '-') (h2 : ∀ a ∈ l.getLast?, ¬ a = '-') :
    stripHyphen l = l := by
  unfold stripHyphen
  have e1 : l.dropWhile (fun c => c = '-') = l :=
    dropWhile_eq_self_of_head (by intro a ha; simpa using h1 a ha)
  rw [e1]
  have e2 : l.reverse.dropWhile (fun c => c = '-') = l.reverse :=
    dropWhile_eq_self_of_head
      (by intro a ha; rw [List.head?_reverse] at ha; simpa using h2 a ha)
  rw [e2]
  exact List.reverse_reverse l

theorem stripHyphen_chain' {l : List Char}
    (h : List.Chain' NoTwoHyphens l) :
    List.Chain' NoTwoHyphens (stripHyphen l) := by
  have hinf : stripHyphen l <:+: l := by
    unfold stripHyphen
    set A := l.dropWhile (fun c => c = '-') with hA
    have h1 : (A.reverse.dropWhile (fun c => c = '-')).reverse <+: A := by
      rw [← List.reverse_suffix]
      rw [List.reverse_reverse]
      exact List.dropWhile_suffix _
    have h2 : A <:+ l := hA ▸ List.dropWhile_suffix _
    exact h1.isInfix.trans h2.isInfix
  exact h.infix hinf

theorem toNat_ofNat_valid (n : Nat) (h : n.isValidChar) :
    (Char.ofNat n).toNat = n := by
  simp [Char.ofNat, h, Char.toNat, Char.ofNatAux]
  rfl

theorem toLowerChar_isLowerWord {c : Char} (h : isWordChar c = true) :
    isLowerWord (toLowerChar c) = true := by
  unfold isWordChar at h
  unfold toLowerChar isLowerWord
  by_cases hu : 65 ≤ c.toNat && c.toNat ≤ 90
  · rw [if_pos hu]
    simp only [Bool.and_eq_true, decide_eq_true_eq] at hu
    have hv : (c.toNat + 32).isValidChar := Or.inl (by omega)
    rw [toNat_ofNat_valid _ hv]
    simp only [Bool.or_eq_true, Bool.and_eq_true, decide_eq_true_eq]
    omega
  · rw [if_neg hu]
    simp only [Bool.or_eq_true, Bool.and_eq_true, decide_eq_true_eq] at h hu ⊢
    omega

theorem toLowerChar_eq_hyphen {c : Char} (h : toLowerChar c = '-') : c = '-' := by
  unfold toLowerChar at h
  by_cases hu : 65 ≤ c.toNat && c.toNat ≤ 90
  · rw [if_pos hu] at h
    simp only [Bool.and_eq_true, decide_eq_true_eq] at hu
    have hv : (c.toNat + 32).isValidChar := Or.inl (by omega)
    have := congrArg Char.toNat h
    rw [toNat_ofNat_valid _ hv] at this
    have h45 : ('-').toNat = 45 := rfl
    omega
  · rwa [if_neg hu] at h

theorem toLowerChar_of_lowerWord {c : Char} (h : isLowerWord c = true) :
    toLowerChar c = c := by
  unfold isLowerWord at h
  unfold toLowerChar
  simp only [Bool.or_eq_true, Bool.and_eq_true, decide_eq_true_eq] at h
  rw [if_neg (by simp only [Bool.and_eq_true, decide_eq_true_eq]; omega)]

theorem map_eq_self_of_id {f : Char → Char} {l : List Char}
    (h : ∀ c ∈ l, f c = c) : l.map f = l := by
  induction l with
  | nil => rfl
  | cons c rest ih =>
    rw [List.map_cons, h c (List.mem_cons_self c rest),
      ih (fun d hd => h d (List.mem_cons_of_mem c hd))]

theorem isLowerWord_toNat_lt {c : Char} (h : isLowerWord c = true) :
    c.toNat < 128 := by
  simp only [isLowerWord, Bool.or_eq_true, Bool.and_eq_true,
    decide_eq_true_eq] at h
  omega

theorem nfkd_eq_self {l : List Char} (h : ∀ c ∈ l, c.toNat < 128) :
    nfkd l = l := by
  induction l with
  | nil => rfl
  | cons c rest ih =>
    unfold nfkd at ih ⊢
    rw [List.flatMap_cons, ih (fun d hd => h d (List.mem_cons_of_mem c hd))]
    unfold nfkdChar
    rw [if_pos (h c (List.mem_cons_self c rest))]
    rfl

theorem stripCombining_eq_self {l : List Char}
    (h : ∀ c ∈ l, isCombining c = false) : stripCombining l = l := by
  unfold stripCombining
  rw [List.filter_eq_self]
  intro a ha
  simp [h a ha]

/-- Every character of the normalizer's output lies in `[a-z0-9-]`. -/
theorem normalizeChars_lowerWord {c : Char} {l : List Char}
    (h : c ∈ normalizeChars l) : isLowerWord c = true := by
  unfold normalizeChars pyLower at h
  obtain ⟨d, hd, hcd⟩ := List.mem_map.mp h
  have hd2 := mem_stripHyphen hd
  have hd3 := mem_collapseHyphens hd2
  have hd4 := mem_subNonWord hd3
  rw [← hcd]
  exact toLowerChar_isLowerWord hd4

/-- The normalizer's output never has two adjacent hyphens. -/
theorem normalizeChars_chain' (l : List Char) :
    List.Chain' NoTwoHyphens (normalizeChars l) := by
  unfold normalizeChars pyLower
  have h1 := stripHyphen_chain'
    (chain'_collapseHyphens (subNonWord (subWs (stripCombining (nfkd l)))))
  refine (List.chain'_map (R := NoTwoHyphens) toLowerChar).mpr ?_
  refine h1.imp ?_
  intro a b hab ⟨ha, hb⟩
  exact hab ⟨toLowerChar_eq_hyphen ha, toLowerChar_eq_hyphen hb⟩

/-- The normalizer's output does not start with a hyphen. -/
theorem normalizeChars_head? {l : List Char} {a : Char}
    (h : a ∈ (normalizeChars l).head?) : ¬ a = '-' := by
  unfold normalizeChars pyLower at h
  rw [List.head?_map] at h
  obtain ⟨b, hb, hab⟩ := Option.map_eq_some'.mp (Option.mem_def.mp h)
  intro ha
  exact head?_stripHyphen (Option.mem_def.mpr hb)
    (toLowerChar_eq_hyphen (hab.symm ▸ ha))

/-- The normalizer's output does not end with a hyphen. -/
theorem normalizeChars_getLast? {l : List Char} {a : Char}
    (h : a ∈ (normalizeChars l).getLast?) : ¬ a = '-' := by
  unfold normalizeChars pyLower at h
  rw [List.getLast?_map] at h
  obtain ⟨b, hb, hab⟩ := Option.map_eq_some'.mp (Option.mem_def.mp h)
  intro ha
  exact getLast?_stripHyphen (Option.mem_def.mpr hb)
    (toLowerChar_eq_hyphen (hab.symm ▸ ha))

theorem isLowerWord_not_space {c : Char} (h : isLowerWord c = true) :
    isPySpace c = false := by
  simp only [isLowerWord, Bool.or_eq_true, Bool.and_eq_true,
    decide_eq_true_eq] at h
  simp only [isPySpace, Bool.or_eq_true, Bool.and_eq_true, decide_eq_true_eq,
    Bool.or_eq_false_iff, Bool.and_eq_false_iff, decide_eq_false_iff_not]
  omega

theorem isLowerWord_isWordChar {c : Char} (h : isLowerWord c = true) :
    isWordChar c = true := by
  simp only [isLowerWord, Bool.or_eq_true, Bool.and_eq_true,
    decide_eq_true_eq] at h
  simp only [isWordChar, Bool.or_eq_true, Bool.and_eq_true, decide_eq_true_eq]
  omega

/-- Any list with the four output properties of the normalizer is a fixed
point of the normalization chain. -/
theorem normalizeChars_fixed {y : List Char}
    (hw : ∀ c ∈ y, isLowerWord c = true)
    (hch : List.Chain' NoTwoHyphens y)
    (hh : ∀ a ∈ y.head?, ¬ a = '-')
    (hl : ∀ a ∈ y.getLast?, ¬ a = '-') :
    normalizeChars y = y := by
  unfold normalizeChars
  rw [nfkd_eq_self (fun c hc => isLowerWord_toNat_lt (hw c hc))]
  rw [stripCombining_eq_self (fun c hc => by
    have := isLowerWord_toNat_lt (hw c hc)
    simp only [isCombining, Bool.and_eq_true, decide_eq_true_eq,
      Bool.and_eq_false_iff, decide_eq_false_iff_not]
    omega)]
  unfold subWs
  rw [subWsAux_eq_self (fun c hc => isLowerWord_not_space (hw c hc)) false]
  unfold subNonWord
  rw [map_eq_self_of_id (fun c hc => if_pos (isLowerWord_isWordChar (hw c hc)))]
  rw [collapseHyphens_eq_self hch]
  rw [stripHyphen_eq_self hh hl]
  unfold pyLower
  exact map_eq_self_of_id (fun c hc => toLowerChar_of_lowerWord (hw c hc))

theorem normalize_field_name_lowerWord (v : PyVal) :
    ∀ c ∈ (normalize_field_name v).data, isLowerWord c = true := by
  cases v with
  | str s =>
    intro c hc
    rw [show normalize_field_name (.str s) =
      (if s.isEmpty = true then "" else String.mk (normalizeChars s.data)) from rfl] at hc
    by_cases h : s.isEmpty
    · rw [if_pos h] at hc
      exact absurd hc (by simp [String.data])
    · rw [if_neg h] at hc
      exact normalizeChars_lowerWord hc
  | none => intro c hc; exact absurd hc (by simp [normalize_field_name, String.data])
  | num n => intro c hc; exact absurd hc (by simp [normalize_field_name, String.data])
  | list l => intro c hc; exact absurd hc (by simp [normalize_field_name, String.data])
  | dict l => intro c hc; exact absurd hc (by simp [normalize_field_name, String.data])

/-- A normalized token never contains an underscore (code point 95), since the
output alphabet is `[a-z0-9-]`. -/
theorem normalize_no_underscore (v : PyVal) :
    ¬ ('_' ∈ (normalize_field_name v).data) := by
  intro h
  have := normalize_field_name_lowerWord v '_' h
  exact absurd this (by decide)

/-- A custom-prefixed key always contains an underscore. -/
theorem startsWithCustom_underscore {k : String}
    (h : startsWithCustom k = true) : '_' ∈ k.data := by
  unfold startsWithCustom at h
  have hpre : "customfield_".data <+: k.data := List.isPrefixOf_iff_prefix.mp h
  exact hpre.sublist.subset (by decide)

/-- A normalized token is never itself a custom-prefixed key. -/
theorem normalize_not_custom (v : PyVal) :
    startsWithCustom (normalize_field_name v) = false := by
  by_cases h : startsWithCustom (normalize_field_name v)
  · exact absurd (startsWithCustom_underscore h) (normalize_no_underscore v)
  · exact Bool.eq_false_iff.mpr h

/-! ### Transform-loop lemmas -/

theorem get_normalized_field_name_eq (entries : List PyVal) (nm : String) :
    get_normalized_field_name (.list entries) (.str nm) = .ok (normTarget entries nm) := by
  unfold get_normalized_field_name get_correspond_name_by_field_id normTarget
  by_cases h : truthy (findFieldName nm entries) <;> simp [h]

theorem rename_customfield_eq (l f : List (String × PyVal)) (nm t : String)
    (hf : dlookup l "fields" = some (.dict f)) :
    rename_customfield (.dict l) nm t =
      (match dlookup f nm with
       | some v => .ok (.dict (dset l "fields" (.dict (dset (dremove f nm) t v))))
       | Option.none => .ok (.dict l)) := by
  cases hv : dlookup f nm with
  | none => simp [rename_customfield, hf, hv, dmem]
  | some v => simp [rename_customfield, hf, hv, dmem]

theorem transformLoop_spec (entries : List PyVal) (names : List String) :
    ∀ l f : List (String × PyVal),
    dlookup l "fields" = some (.dict f) →
    ∃ l2, transformLoop (.list entries) (.dict l) names = (.dict l2, Option.none)
      ∧ dlookup l2 "fields" = some (.dict (loopFields entries f names))
      ∧ (∀ k, ¬ k = "fields" → dlookup l2 k = dlookup l k) := by
  induction names with
  | nil =>
    intro l f hf
    exact ⟨l, rfl, by simpa [loopFields] using hf, fun k _ => rfl⟩
  | cons nm rest ih =>
    intro l f hf
    have hstep : transformLoop (.list entries) (.dict l) (nm :: rest) =
        (if fireB entries nm then
          match rename_customfield (.dict l) nm (normTarget entries nm) with
          | .error e => (.dict l, some e)
          | .ok issue2 => transformLoop (.list entries) issue2 rest
        else transformLoop (.list entries) (.dict l) rest) := by
      conv =>
        lhs
        unfold transformLoop
      rw [get_normalized_field_name_eq]
      unfold fireB
      rfl
    rw [hstep]
    by_cases hfire : fireB entries nm
    · rw [if_pos hfire]
      rw [rename_customfield_eq l f nm (normTarget entries nm) hf]
      cases hv : dlookup f nm with
      | none =>
        obtain ⟨l2, heq, hf2, hframe⟩ := ih l f hf
        refine ⟨l2, heq, ?_, hframe⟩
        unfold loopFields
        rw [if_pos hfire, hv]
        exact hf2
      | some v =>
        have hf3 : dlookup (dset l "fields"
            (.dict (dset (dremove f nm) (normTarget entries nm) v))) "fields" =
            some (.dict (dset (dremove f nm) (normTarget entries nm) v)) :=
          dlookup_dset_self l "fields" _
        obtain ⟨l2, heq, hf2, hframe⟩ := ih _ _ hf3
        refine ⟨l2, heq, ?_, ?_⟩
        · unfold loopFields
          rw [if_pos hfire, hv]
          exact hf2
        · intro k hk
          rw [hframe k hk, dlookup_dset_ne l "fields" k _ hk]
    · rw [if_neg hfire]
      obtain ⟨l2, heq, hf2, hframe⟩ := ih l f hf
      refine ⟨l2, heq, ?_, hframe⟩
      unfold loopFields
      rw [if_neg hfire]
      exact hf2

theorem transformLoop_skip (entries : List PyVal) (issue : PyVal)
    (names : List String) (h : ∀ nm ∈ names, fireB entries nm = false) :
    transformLoop (.list entries) issue names = (issue, Option.none) := by
  induction names with
  | nil => rfl
  | cons nm rest ih =>
    unfold transformLoop
    rw [get_normalized_field_name_eq]
    have hnm := h nm (List.mem_cons_self nm rest)
    unfold fireB at hnm
    simp only [hnm]
    rw [show (if false = true then
        (match rename_customfield issue nm (normTarget entries nm) with
         | .error e => (issue, some e)
         | .ok issue2 => transformLoop (.list entries) issue2 rest)
      else transformLoop (.list entries) issue rest) =
      transformLoop (.list entries) issue rest from rfl]
    exact ih (fun x hx => h x (List.mem_cons_of_mem nm hx))

theorem startsWithCustom_empty : startsWithCustom "" = false := by decide

theorem normTarget_not_custom (entries : List PyVal) (nm : String) :
    startsWithCustom (normTarget entries nm) = false := by
  unfold normTarget
  by_cases h : truthy (findFieldName nm entries)
  · rw [if_pos h]; exact normalize_not_custom _
  · rw [if_neg h]; exact startsWithCustom_empty

theorem custom_ne_of_not_custom {k t : String} (hk : startsWithCustom k = true)
    (ht : startsWithCustom t = false) : ¬ k = t := by
  intro h
  rw [h] at hk
  rw [hk] at ht
  exact absurd ht (by decide)

theorem loopFields_lookup_frame (entries : List PyVal) (names : List String) :
    ∀ f k, (∀ nm ∈ names, ¬ nm = k) →
    (∀ nm ∈ names, fireB entries nm = true → ¬ normTarget entries nm = k) →
    dlookup (loopFields entries f names) k = dlookup f k := by
  induction names with
  | nil => intro f k _ _; rfl
  | cons nm rest ih =>
    intro f k h1 h2
    unfold loopFields
    by_cases hfire : fireB entries nm
    · rw [if_pos hfire]
      cases hv : dlookup f nm with
      | none =>
        exact ih f k (fun x hx => h1 x (List.mem_cons_of_mem nm hx))
          (fun x hx => h2 x (List.mem_cons_of_mem nm hx))
      | some v =>
        rw [ih _ k (fun x hx => h1 x (List.mem_cons_of_mem nm hx))
          (fun x hx => h2 x (List.mem_cons_of_mem nm hx))]
        rw [dlookup_dset_ne _ _ k v
          (fun hh => h2 nm (List.mem_cons_self nm rest) hfire (Eq.symm hh))]
        exact dlookup_dremove_ne f nm k
          (fun hh => h1 nm (List.mem_cons_self nm rest) (Eq.symm hh))
    · rw [if_neg hfire]
      exact ih f k (fun x hx => h1 x (List.mem_cons_of_mem nm hx))
        (fun x hx => h2 x (List.mem_cons_of_mem nm hx))

theorem loopFields_mem_frame (entries : List PyVal) (names : List String) :
    ∀ f k, (∀ nm ∈ names, ¬ nm = k) → dmem f k = true →
    dmem (loopFields entries f names) k = true := by
  induction names with
  | nil => intro f k _ h; exact h
  | cons nm rest ih =>
    intro f k h1 hk
    unfold loopFields
    by_cases hfire : fireB entries nm
    · rw [if_pos hfire]
      cases hv : dlookup f nm with
      | none => exact ih f k (fun x hx => h1 x (List.mem_cons_of_mem nm hx)) hk
      | some v =>
        refine ih _ k (fun x hx => h1 x (List.mem_cons_of_mem nm hx)) ?_
        by_cases hkt : k = normTarget entries nm
        · exact (dmem_dset _ _ k v).mpr (Or.inl hkt)
        · refine (dmem_dset _ _ k v).mpr (Or.inr ?_)
          refine (dmem_dremove f nm k).mpr
            ⟨fun hh => h1 nm (List.mem_cons_self nm rest) (Eq.symm hh), hk⟩
    · rw [if_neg hfire]
      exact ih f k (fun x hx => h1 x (List.mem_cons_of_mem nm hx)) hk

theorem loopFields_mem_origin (entries : List PyVal) (names : List String) :
    ∀ f k, dmem (loopFields entries f names) k = true →
    dmem f k = true ∨
      ∃ nm ∈ names, fireB entries nm = true ∧ normTarget entries nm = k := by
  induction names with
  | nil => intro f k h; exact Or.inl h
  | cons nm rest ih =>
    intro f k h
    unfold loopFields at h
    by_cases hfire : fireB entries nm
    · rw [if_pos hfire] at h
      cases hv : dlookup f nm with
      | none =>
        rw [hv] at h
        rcases ih f k h with h1 | ⟨x, hx, hfx, htx⟩
        · exact Or.inl h1
        · exact Or.inr ⟨x, List.mem_cons_of_mem nm hx, hfx, htx⟩
      | some v =>
        rw [hv] at h
        rcases ih _ k h with h1 | ⟨x, hx, hfx, htx⟩
        · rcases (dmem_dset _ _ k v).mp h1 with h2 | h2
          · exact Or.inr ⟨nm, List.mem_cons_self nm rest, hfire, Eq.symm h2⟩
          · exact Or.inl ((dmem_dremove f nm k).mp h2).2
        · exact Or.inr ⟨x, List.mem_cons_of_mem nm hx, hfx, htx⟩
    · rw [if_neg hfire] at h
      rcases ih f k h with h1 | ⟨x, hx, hfx, htx⟩
      · exact Or.inl h1
      · exact Or.inr ⟨x, List.mem_cons_of_mem nm hx, hfx, htx⟩

theorem loopFields_not_mem (entries : List PyVal) (names : List String) :
    ∀ f k, startsWithCustom k = true → dmem f k = false →
    dmem (loopFields entries f names) k = false := by
  induction names with
  | nil => intro f k _ h; exact h
  | cons nm rest ih =>
    intro f k hck hk
    unfold loopFields
    by_cases hfire : fireB entries nm
    · rw [if_pos hfire]
      cases hv : dlookup f nm with
      | none => exact ih f k hck hk
      | some v =>
        refine ih _ k hck ?_
        have hkt : ¬ k = normTarget entries nm :=
          custom_ne_of_not_custom hck (normTarget_not_custom entries nm)
        rw [← Bool.not_eq_true]
        intro hmem
        rcases (dmem_dset _ _ k v).mp hmem with h2 | h2
        · exact hkt h2
        · rw [((dmem_dremove f nm k).mp h2).2] at hk
          exact absurd hk (by decide)
    · rw [if_neg hfire]
      exact ih f k hck hk

theorem loopFields_fired_removed (entries : List PyVal) (names : List String) :
    ∀ f nm, names.Nodup → (∀ x ∈ names, startsWithCustom x = true) →
    nm ∈ names → fireB entries nm = true → dmem f nm = true →
    dmem (loopFields entries f names) nm = false := by
  induction names with
  | nil => intro f nm _ _ h; exact absurd h (List.not_mem_nil nm)
  | cons x rest ih =>
    intro f nm hnd hcust hmem hfire hpresent
    have hcx : startsWithCustom x = true := hcust x (List.mem_cons_self x rest)
    rcases List.mem_cons.mp hmem with heq | hmem2
    · subst heq
      unfold loopFields
      rw [if_pos hfire]
      cases hv : dlookup f nm with
      | none => rw [dmem, hv] at hpresent; exact absurd hpresent (by decide)
      | some v =>
        refine loopFields_not_mem entries rest _ nm hcx ?_
        rw [← Bool.not_eq_true]
        intro hmem3
        rcases (dmem_dset _ _ nm v).mp hmem3 with h2 | h2
        · exact custom_ne_of_not_custom hcx (normTarget_not_custom entries nm) h2
        · exact ((dmem_dremove f nm nm).mp h2).1 rfl
    · have hne : ¬ nm = x := by
        intro hh
        subst hh
        exact (List.nodup_cons.mp hnd).1 hmem2
      unfold loopFields
      by_cases hfx : fireB entries x
      · rw [if_pos hfx]
        cases hv : dlookup f x with
        | none =>
          exact ih f nm (List.nodup_cons.mp hnd).2
            (fun y hy => hcust y (List.mem_cons_of_mem x hy)) hmem2 hfire hpresent
        | some v =>
          refine ih _ nm (List.nodup_cons.mp hnd).2
            (fun y hy => hcust y (List.mem_cons_of_mem x hy)) hmem2 hfire ?_
          refine (dmem_dset _ _ nm v).mpr (Or.inr ?_)
          exact (dmem_dremove f x nm).mpr ⟨hne, hpresent⟩
      · rw [if_neg hfx]
        exact ih f nm (List.nodup_cons.mp hnd).2
          (fun y hy => hcust y (List.mem_cons_of_mem x hy)) hmem2 hfire hpresent

theorem lastFirer_cons (entries : List PyVal) (t x : String) (rest : List String) :
    lastFirer entries t (x :: rest) =
      (lastFirer entries t rest).or
        (if targetsTo entries t x then some x else Option.none) := by
  unfold lastFirer
  rw [List.reverse_cons, List.find?_append]
  congr 1
  cases hx : targetsTo entries t x <;> simp [List.find?, hx]

theorem lastFirer_mem {entries : List PyVal} {t : String} {names : List String}
    {nm : String} (h : lastFirer entries t names = some nm) :
    nm ∈ names ∧ targetsTo entries t nm = true := by
  unfold lastFirer at h
  exact ⟨List.mem_reverse.mp (List.mem_of_find?_eq_some h), List.find?_some h⟩

theorem loopFields_lookup_target (entries : List PyVal) (t : String)
    (ht : startsWithCustom t = false) (names : List String) :
    ∀ f, names.Nodup → (∀ x ∈ names, startsWithCustom x = true) →
    (∀ x ∈ names, dmem f x = true) →
    dlookup (loopFields entries f names) t =
      (match lastFirer entries t names with
       | some nm => dlookup f nm
       | Option.none => dlookup f t) := by
  induction names with
  | nil => intro f _ _ _; rfl
  | cons x rest ih =>
    intro f hnd hcust hpres
    have hcx : startsWithCustom x = true := hcust x (List.mem_cons_self x rest)
    have hxt : ¬ x = t := custom_ne_of_not_custom hcx ht
    rw [lastFirer_cons]
    unfold loopFields
    by_cases hfx : fireB entries x
    · rw [if_pos hfx]
      cases hv : dlookup f x with
      | none =>
        have hp := hpres x (List.mem_cons_self x rest)
        rw [dmem, hv] at hp
        exact absurd hp (by decide)
      | some v =>
        set tx := normTarget entries x with htx
        have hrest : ∀ y ∈ rest, dmem (dset (dremove f x) tx v) y = true := by
          intro y hy
          have hyx : ¬ y = x := by
            intro hh; subst hh; exact (List.nodup_cons.mp hnd).1 hy
          refine (dmem_dset _ _ y v).mpr (Or.inr ?_)
          exact (dmem_dremove f x y).mpr ⟨hyx, hpres y (List.mem_cons_of_mem x hy)⟩
        rw [ih _ (List.nodup_cons.mp hnd).2
          (fun y hy => hcust y (List.mem_cons_of_mem x hy)) hrest]
        cases hlf : lastFirer entries t rest with
        | some nm =>
          have ⟨hnm, _⟩ := lastFirer_mem hlf
          have hnmx : ¬ nm = x := by
            intro hh; subst hh; exact (List.nodup_cons.mp hnd).1 hnm
          have hcnm := hcust nm (List.mem_cons_of_mem x hnm)
          show dlookup (dset (dremove f x) tx v) nm = dlookup f nm
          rw [dlookup_dset_ne _ _ nm v
            (custom_ne_of_not_custom hcnm (normTarget_not_custom entries x))]
          exact dlookup_dremove_ne f x nm hnmx
        | none =>
          by_cases hxtgt : tx = t
          · have hto : targetsTo entries t x = true := by
              unfold targetsTo
              rw [hfx, ← htx, hxtgt]
              simp
            show dlookup (dset (dremove f x) tx v) t =
              (match (Option.none).or
                (if targetsTo entries t x = true then some x else Option.none) with
               | some nm => dlookup f nm
               | Option.none => dlookup f t)
            rw [if_pos hto]
            rw [hxtgt, dlookup_dset_self]
            exact hv.symm
          · have hto : ¬ targetsTo entries t x = true := by
              unfold targetsTo
              rw [← htx]
              simp [hxtgt]
            show dlookup (dset (dremove f x) tx v) t =
              (match (Option.none).or
                (if targetsTo entries t x = true then some x else Option.none) with
               | some nm => dlookup f nm
               | Option.none => dlookup f t)
            rw [if_neg hto]
            rw [dlookup_dset_ne _ _ t v (fun hh => hxtgt (Eq.symm hh))]
            exact dlookup_dremove_ne f x t (fun hh => hxt (Eq.symm hh))
    · rw [if_neg hfx]
      have hto : ¬ targetsTo entries t x = true := by
        unfold targetsTo
        rw [Bool.eq_false_iff.mpr hfx]
        simp
      rw [ih f (List.nodup_cons.mp hnd).2
        (fun y hy => hcust y (List.mem_cons_of_mem x hy))
        (fun y hy => hpres y (List.mem_cons_of_mem x hy))]
      rw [if_neg hto]
      cases hlf : lastFirer entries t rest <;> rfl

theorem get_custom_fields_names_eq (l f : List (String × PyVal))
    (hf : dlookup l "fields" = some (.dict f)) :
    get_custom_fields_names (.dict l) = .ok (customNames f) := by
  simp [get_custom_fields_names, hf]

theorem transform_issue_spec (entries : List PyVal) (l f : List (String × PyVal))
    (hf : dlookup l "fields" = some (.dict f)) :
    ∃ l2, transform_issue (.dict l) (.list entries) = (.dict l2, Option.none)
      ∧ dlookup l2 "fields" = some (.dict (loopFields entries f (customNames f)))
      ∧ (∀ k, ¬ k = "fields" → dlookup l2 k = dlookup l k) := by
  have hmem : dmem l "fields" = true := by rw [dmem, hf]; rfl
  have h1 : transform_issue (.dict l) (.list entries) =
      transformLoop (.list entries) (.dict l) (customNames f) := by
    simp only [transform_issue, hmem, if_true]
    rw [get_custom_fields_names_eq l f hf]
  rw [h1]
  exact transformLoop_spec entries (customNames f) l f hf

theorem transform_issue_no_valueError (l : List (String × PyVal))
    (entries : List PyVal) (hmem : dmem l "fields" = true) :
    ∀ m, ¬ (transform_issue (.dict l) (.list entries)).2 =
      some (PyErr.valueError m) := by
  intro m
  cases hv : dlookup l "fields" with
  | none => rw [dmem, hv] at hmem; exact absurd hmem (by decide)
  | some x =>
    cases x with
    | dict f =>
      obtain ⟨l2, heq, _, _⟩ := transform_issue_spec entries l f hv
      rw [heq]
      simp
    | none =>
      simp only [transform_issue, hmem, if_true, get_custom_fields_names, hv]
      simp
    | str s =>
      simp only [transform_issue, hmem, if_true, get_custom_fields_names, hv]
      simp
    | num n =>
      simp only [transform_issue, hmem, if_true, get_custom_fields_names, hv]
      simp
    | list xs =>
      simp only [transform_issue, hmem, if_true, get_custom_fields_names, hv]
      simp

/-- C3: `transform_issue` raises a distinct `ValueError`, with the record
state untouched, exactly when the record is not a dict, the record lacks the
`"fields"` key, or the catalog is not a list; the three messages are pairwise
distinct, and when none of the three preconditions is violated no `ValueError`
is raised. -/
theorem claimC3 (issue md : PyVal) :
    ((∃ m, (transform_issue issue md).2 = some (PyErr.valueError m)) ↔
      (isDict issue = false ∨ hasFieldsKey issue = false ∨ isList md = false))
    ∧ (isDict issue = false →
        transform_issue issue md =
          (issue, some (.valueError "issue doit etre un dictionnaire")))
    ∧ (isDict issue = true → hasFieldsKey issue = false →
        transform_issue issue md =
          (issue, some (.valueError "issue doit contenir la cle fields")))
    ∧ (isDict issue = true → hasFieldsKey issue = true → isList md = false →
        transform_issue issue md =
          (issue, some (.valueError "fields_metadata doit etre une liste")))
    ∧ ¬ ("issue doit etre un dictionnaire" = "issue doit contenir la cle fields")
    ∧ ¬ ("issue doit etre un dictionnaire" = "fields_metadata doit etre une liste")
    ∧ ¬ ("issue doit contenir la cle fields" = "fields_metadata doit etre une liste") := by
  refine ⟨?_, ?_, ?_, ?_, by decide, by decide, by decide⟩
  · constructor
    · intro ⟨m, hm⟩
      by_contra hcon
      push_neg at hcon
      obtain ⟨h1, h2, h3⟩ := hcon
      cases issue with
      | dict l =>
        have h2b : hasFieldsKey (PyVal.dict l) = true := by
          cases hb : hasFieldsKey (PyVal.dict l)
          · exact absurd hb h2
          · rfl
        have hmem : dmem l "fields" = true := by simpa [hasFieldsKey] using h2b
        cases md with
        | list entries => exact transform_issue_no_valueError l entries hmem m hm
        | none => exact h3 rfl
        | str s => exact h3 rfl
        | num n => exact h3 rfl
        | dict d => exact h3 rfl
      | none => exact h1 rfl
      | str s => exact h1 rfl
      | num n => exact h1 rfl
      | list xs => exact h1 rfl
    · intro h
      rcases h with h | h | h
      · cases issue with
        | dict l => exact absurd h (by simp [isDict])
        | none => exact ⟨_, rfl⟩
        | str s => exact ⟨_, rfl⟩
        | num n => exact ⟨_, rfl⟩
        | list xs => exact ⟨_, rfl⟩
      · cases issue with
        | dict l =>
          have hmem : dmem l "fields" = false := by simpa [hasFieldsKey] using h
          refine ⟨"issue doit contenir la cle fields", ?_⟩
          simp [transform_issue, hmem]
        | none => exact ⟨_, rfl⟩
        | str s => exact ⟨_, rfl⟩
        | num n => exact ⟨_, rfl⟩
        | list xs => exact ⟨_, rfl⟩
      · cases issue with
        | dict l =>
          by_cases hmem : dmem l "fields"
          · cases md with
            | list entries => exact absurd h (by simp [isList])
            | none =>
              exact ⟨"fields_metadata doit etre une liste", by simp [transform_issue, hmem]⟩
            | str s =>
              exact ⟨"fields_metadata doit etre une liste", by simp [transform_issue, hmem]⟩
            | num n =>
              exact ⟨"fields_metadata doit etre une liste", by simp [transform_issue, hmem]⟩
            | dict d =>
              exact ⟨"fields_metadata doit etre une liste", by simp [transform_issue, hmem]⟩
          · refine ⟨"issue doit contenir la cle fields", ?_⟩
            simp [transform_issue, Bool.eq_false_iff.mpr hmem]
        | none => exact ⟨_, rfl⟩
        | str s => exact ⟨_, rfl⟩
        | num n => exact ⟨_, rfl⟩
        | list xs => exact ⟨_, rfl⟩
  · intro h
    cases issue with
    | dict l => exact absurd h (by simp [isDict])
    | none => rfl
    | str s => rfl
    | num n => rfl
    | list xs => rfl
  · intro h1 h2
    cases issue with
    | dict l =>
      have hmem : dmem l "fields" = false := by simpa [hasFieldsKey] using h2
      simp [transform_issue, hmem]
    | none => exact absurd h1 (by simp [isDict])
    | str s => exact absurd h1 (by simp [isDict])
    | num n => exact absurd h1 (by simp [isDict])
    | list xs => exact absurd h1 (by simp [isDict])
  · intro h1 h2 h3
    cases issue with
    | dict l =>
      have hmem : dmem l "fields" = true := by simpa [hasFieldsKey] using h2
      cases md with
      | list entries => exact absurd h3 (by simp [isList])
      | none => simp [transform_issue, hmem]
      | str s => simp [transform_issue, hmem]
      | num n => simp [transform_issue, hmem]
      | dict d => simp [transform_issue, hmem]
    | none => exact absurd h1 (by simp [isDict])
    | str s => exact absurd h1 (by simp [isDict])
    | num n => exact absurd h1 (by simp [isDict])
    | list xs => exact absurd h1 (by simp [isDict])

/-- C3 witness: at the concrete non-dict record `3` with an empty catalog,
the theorem yields the first distinct validation error with the record
unmutated. -/
theorem claimC3_witness :
    transform_issue (.num 3) (.list []) =
      (.num 3, some (.valueError "issue doit etre un dictionnaire")) :=
  (claimC3 (.num 3) (.list [])).2.1 rfl

/-- C5: the worked example of the spec: one custom field whose catalog entry
is named `Root Cause` ends up as the sole key `root-cause` holding the moved
value, with the `customfield_100` key gone. -/
theorem claimC5 :
    transform_issue (.dict [("fields", .dict [("customfield_100", .str "X")])])
      (.list [.dict [("id", .str "customfield_100"), ("name", .str "Root Cause")]]) =
    (.dict [("fields", .dict [("root-cause", .str "X")])], Option.none) := by
  rfl

/-- C10: `transform_issue` mutates only the `"fields"` sub-mapping: every
other top-level key keeps its value, and every non-custom key inside
`"fields"` is still present afterwards (its value may have been overwritten by
a rename landing on it). -/
theorem claimC10 (l f : List (String × PyVal)) (entries : List PyVal)
    (hf : dlookup l "fields" = some (.dict f)) :
    ∃ l2 f2, transform_issue (.dict l) (.list entries) = (.dict l2, Option.none)
      ∧ dlookup l2 "fields" = some (.dict f2)
      ∧ (∀ k, ¬ k = "fields" → dlookup l2 k = dlookup l k)
      ∧ (∀ k, startsWithCustom k = false → dmem f k = true → dmem f2 k = true) := by
  obtain ⟨l2, heq, hf2, hframe⟩ := transform_issue_spec entries l f hf
  refine ⟨l2, loopFields entries f (customNames f), heq, hf2, hframe, ?_⟩
  intro k hck hkmem
  refine loopFields_mem_frame entries (customNames f) f k ?_ hkmem
  intro nm hnm
  have hcnm : startsWithCustom nm = true := (List.mem_filter.mp hnm).2
  intro hh
  rw [hh] at hcnm
  rw [hcnm] at hck
  exact absurd hck (by decide)

/-- C10 witness: a record with a key outside fields, a plain field and a
custom field, against the empty catalog. -/
theorem claimC10_witness :
    ∃ l2 f2,
      transform_issue
        (.dict [("key", .str "K"),
                ("fields", .dict [("summary", .str "s"), ("customfield_9", .str "V")])])
        (.list []) = (.dict l2, Option.none)
      ∧ dlookup l2 "fields" = some (.dict f2)
      ∧ (∀ k, ¬ k = "fields" →
          dlookup l2 k = dlookup [("key", PyVal.str "K"),
            ("fields", PyVal.dict [("summary", PyVal.str "s"),
              ("customfield_9", PyVal.str "V")])] k)
      ∧ (∀ k, startsWithCustom k = false →
          dmem [("summary", PyVal.str "s"), ("customfield_9", PyVal.str "V")] k = true →
          dmem f2 k = true) :=
  claimC10 _ _ [] rfl

/-- C9: `transform_issue` is idempotent: on a record whose `"fields"` value is
a dict with distinct keys, running the transform a second time with the same
catalog returns exactly the state the first run produced (a normalized token
never contains an underscore, so it can never match the `customfield_` prefix,
and an identifier left un-renamed fires the same way again). -/
theorem claimC9 (l f : List (String × PyVal)) (entries : List PyVal)
    (hf : dlookup l "fields" = some (.dict f))
    (hnd : (f.map Prod.fst).Nodup) :
    transform_issue (transform_issue (.dict l) (.list entries)).1 (.list entries) =
      transform_issue (.dict l) (.list entries) := by
  obtain ⟨l2, heq, hf2, _⟩ := transform_issue_spec entries l f hf
  rw [heq]
  have hnd2 : (customNames f).Nodup := List.Nodup.filter _ hnd
  have hcust : ∀ x ∈ customNames f, startsWithCustom x = true :=
    fun x hx => (List.mem_filter.mp hx).2
  have hpres : ∀ x ∈ customNames f, dmem f x = true :=
    fun x hx => (dmem_iff_mem_keys f x).mpr (List.mem_filter.mp hx).1
  have hskip : ∀ nm ∈ customNames (loopFields entries f (customNames f)),
      fireB entries nm = false := by
    intro nm hnm
    have hcnm : startsWithCustom nm = true := (List.mem_filter.mp hnm).2
    have hmem2 : dmem (loopFields entries f (customNames f)) nm = true :=
      (dmem_iff_mem_keys _ nm).mpr (List.mem_filter.mp hnm).1
    rcases loopFields_mem_origin entries (customNames f) f nm hmem2 with
      horig | ⟨x, _, _, htx⟩
    · have hnmf : nm ∈ customNames f :=
        List.mem_filter.mpr ⟨(dmem_iff_mem_keys f nm).mp horig, hcnm⟩
      by_cases hfire : fireB entries nm
      · have hrem := loopFields_fired_removed entries (customNames f) f nm hnd2
          hcust hnmf hfire (hpres nm hnmf)
        rw [hrem] at hmem2
        exact absurd hmem2 (by decide)
      · exact Bool.eq_false_iff.mpr hfire
    · have hnc := normTarget_not_custom entries x
      rw [htx] at hnc
      rw [hcnm] at hnc
      exact absurd hnc (by decide)
  have hmem2 : dmem l2 "fields" = true := by rw [dmem, hf2]; rfl
  have h1 : transform_issue (.dict l2) (.list entries) =
      transformLoop (.list entries) (.dict l2)
        (customNames (loopFields entries f (customNames f))) := by
    simp only [transform_issue, hmem2, if_true]
    rw [get_custom_fields_names_eq l2 _ hf2]
  rw [h1, transformLoop_skip entries (.dict l2) _ hskip]

/-- C9 witness: a record with one renamable custom field and one miss, run
through the theorem at a concrete catalog. -/
theorem claimC9_witness :
    transform_issue
      (transform_issue
        (.dict [("fields", .dict [("customfield_1", .str "A"), ("customfield_2", .str "B")])])
        (.list [.dict [("id", .str "customfield_1"), ("name", .str "Root Cause")]])).1
      (.list [.dict [("id", .str "customfield_1"), ("name", .str "Root Cause")]]) =
    transform_issue
      (.dict [("fields", .dict [("customfield_1", .str "A"), ("customfield_2", .str "B")])])
      (.list [.dict [("id", .str "customfield_1"), ("name", .str "Root Cause")]]) :=
  claimC9 _ _ _ rfl (by decide)

theorem find?_last_split (p : String → Bool) (p1 p2 p3 : List String)
    (ki kj : String) (hkj : p kj = true) (h3 : ∀ x ∈ p3, p x = false) :
    List.find? p (p1 ++ ki :: (p2 ++ kj :: p3)).reverse = some kj := by
  have hsh : (p1 ++ ki :: (p2 ++ kj :: p3)).reverse =
      p3.reverse ++ kj :: (p2.reverse ++ ki :: p1.reverse) := by
    simp
  rw [hsh, List.find?_append]
  rw [List.find?_eq_none.mpr
    (fun x hx => by simp [h3 x (List.mem_reverse.mp hx)])]
  rw [Option.none_or]
  exact List.find?_cons_of_pos _ hkj

/-- C4: when two dynamic fields normalize to the same non-empty token (and no
later dynamic field also lands on that token), the value retained under the
token after the transform is that of the later-processed identifier: the
earlier rename's value is overwritten, not merged. -/
theorem claimC4 (l f : List (String × PyVal)) (entries : List PyVal)
    (t ki kj : String) (p1 p2 p3 : List String)
    (hf : dlookup l "fields" = some (.dict f))
    (hnd : (f.map Prod.fst).Nodup)
    (hsplit : customNames f = p1 ++ ki :: (p2 ++ kj :: p3))
    (hki : targetsTo entries t ki = true)
    (hkj : targetsTo entries t kj = true)
    (hafter : ∀ nm ∈ p3, targetsTo entries t nm = false) :
    ∃ l2 f2, transform_issue (.dict l) (.list entries) = (.dict l2, Option.none)
      ∧ dlookup l2 "fields" = some (.dict f2)
      ∧ dlookup f2 t = dlookup f kj := by
  obtain ⟨l2, heq, hf2, _⟩ := transform_issue_spec entries l f hf
  refine ⟨l2, loopFields entries f (customNames f), heq, hf2, ?_⟩
  have hnd2 : (customNames f).Nodup := List.Nodup.filter _ hnd
  have hcust : ∀ x ∈ customNames f, startsWithCustom x = true :=
    fun x hx => (List.mem_filter.mp hx).2
  have hpres : ∀ x ∈ customNames f, dmem f x = true :=
    fun x hx => (dmem_iff_mem_keys f x).mpr (List.mem_filter.mp hx).1
  have htt : normTarget entries ki = t := by
    have h := hki
    unfold targetsTo at h
    simp only [Bool.and_eq_true, decide_eq_true_eq] at h
    exact h.2
  have htc : startsWithCustom t = false := by
    rw [← htt]; exact normTarget_not_custom entries ki
  rw [loopFields_lookup_target entries t htc (customNames f) f hnd2 hcust hpres]
  have hlast : lastFirer entries t (customNames f) = some kj := by
    unfold lastFirer
    rw [hsplit]
    exact find?_last_split _ p1 p2 p3 ki kj hkj hafter
  rw [hlast]

/-- C4 witness: two custom fields both mapped to the display name `Dup Name`;
the token `dup-name` ends up holding the second field's value `B`. -/
theorem claimC4_witness :
    ∃ l2 f2,
      transform_issue
        (.dict [("fields", .dict [("customfield_1", .str "A"), ("customfield_2", .str "B")])])
        (.list [.dict [("id", .str "customfield_1"), ("name", .str "Dup Name")],
                .dict [("id", .str "customfield_2"), ("name", .str "Dup Name")]]) =
        (.dict l2, Option.none)
      ∧ dlookup l2 "fields" = some (.dict f2)
      ∧ dlookup f2 "dup-name" =
          dlookup [("customfield_1", PyVal.str "A"), ("customfield_2", PyVal.str "B")]
            "customfield_2" :=
  claimC4 _ _ _ "dup-name" "customfield_1" "customfield_2" [] [] [] rfl
    (by decide) (by decide) (by decide) (by decide)
    (fun nm hnm => absurd hnm (List.not_mem_nil nm))

/-- C6: the normalizer is a total function (deterministic and pure by
construction); an empty-string or non-string input degrades to the empty
token; every character of every output lies in `[a-z0-9-]`; and
`normalize("Statut Déploiement") = "statut-deploiement"`,
`normalize("") = ""`. -/
theorem claimC6 :
    (∀ v : PyVal, isStr v = false → normalize_field_name v = "")
    ∧ normalize_field_name (.str "") = ""
    ∧ (∀ v : PyVal, ∀ c ∈ (normalize_field_name v).data, isLowerWord c = true)
    ∧ normalize_field_name (.str "Statut Déploiement") = "statut-deploiement" := by
  refine ⟨?_, rfl, normalize_field_name_lowerWord, by decide⟩
  intro v hv
  cases v with
  | str s => exact absurd hv (by simp [isStr])
  | none => rfl
  | num n => rfl
  | list xs => rfl
  | dict d => rfl

/-- C6 witness: the degradation clause at the non-string input `7`, and the
character-class clause at the first character of the accented example's
output. -/
theorem claimC6_witness :
    normalize_field_name (.num 7) = ""
    ∧ isLowerWord (Char.ofNat 115) = true :=
  ⟨claimC6.1 (.num 7) rfl,
   claimC6.2.2.1 (.str "Statut Déploiement") (Char.ofNat 115) (by decide)⟩

/-- C7: the normalizer is idempotent as soon as its first pass is non-empty:
already-normalized tokens are fixed points. -/
theorem claimC7 (v : PyVal) (h : ¬ normalize_field_name v = "") :
    normalize_field_name (.str (normalize_field_name v)) = normalize_field_name v := by
  cases v with
  | str s =>
    by_cases hs : s.isEmpty
    · exact absurd (by simp [normalize_field_name, hs]) h
    · have hv : normalize_field_name (.str s) = String.mk (normalizeChars s.data) := by
        simp [normalize_field_name, hs]
      rw [hv] at h ⊢
      have hyne : (String.mk (normalizeChars s.data)).isEmpty = false := by
        rw [← Bool.not_eq_true]
        intro hcon
        exact h ((String.isEmpty_iff _).mp hcon)
      have h2 : normalize_field_name (.str (String.mk (normalizeChars s.data))) =
          String.mk (normalizeChars (normalizeChars s.data)) := by
        simp [normalize_field_name, hyne]
      rw [h2]
      rw [normalizeChars_fixed
        (fun c hc => normalizeChars_lowerWord hc)
        (normalizeChars_chain' s.data)
        (fun a ha => normalizeChars_head? ha)
        (fun a ha => normalizeChars_getLast? ha)]
  | none => exact absurd rfl h
  | num n => exact absurd rfl h
  | list xs => exact absurd rfl h
  | dict d => exact absurd rfl h

/-- C7 witness: idempotence at the concrete input `"Ab c"` (first pass
`"ab-c"`). -/
theorem claimC7_witness :
    normalize_field_name (.str (normalize_field_name (.str "Ab c"))) =
      normalize_field_name (.str "Ab c") :=
  claimC7 (.str "Ab c") (by decide)

/-! ### Pipeline trace lemmas -/

theorem download_attachments_recordOps (srv : JiraServer) (key : String) :
    ∀ atts, ∀ op ∈ (download_attachments srv key atts).1, isPageOp op = true := by
  intro atts
  induction atts with
  | nil => intro op hop; exact absurd hop (by simp [download_attachments])
  | cons att rest ih =>
    intro op hop
    unfold download_attachments at hop
    cases hc : dindex att "content" with
    | error e => rw [hc] at hop; exact absurd hop (by simp)
    | ok url =>
      rw [hc] at hop
      cases hn : dindex att "filename" with
      | error e => rw [hn] at hop; exact absurd hop (by simp)
      | ok nameV =>
        rw [hn] at hop
        have hthis : ∀ op2 ∈ (match url, nameV with
            | PyVal.str u, PyVal.str n =>
              if srv.attachmentOk u = true then
                [EtlOp.attemptAttachment key u, EtlOp.wroteAttachment key n]
              else
                [EtlOp.attemptAttachment key u, EtlOp.logAttachmentFailure key n]
            | _, _ => [EtlOp.logAttachmentFailure key ""]),
            isPageOp op2 = true := by
          intro op2 hop2
          cases url with
          | str u =>
            cases nameV with
            | str n =>
              have hop3 : op2 ∈ (if srv.attachmentOk u = true then
                  [EtlOp.attemptAttachment key u, EtlOp.wroteAttachment key n]
                else
                  [EtlOp.attemptAttachment key u,
                   EtlOp.logAttachmentFailure key n]) := hop2
              cases hok : srv.attachmentOk u with
              | true =>
                rw [if_pos hok] at hop3
                simp only [List.mem_cons, List.not_mem_nil, or_false] at hop3
                rcases hop3 with h | h <;> (rw [h]; rfl)
              | false =>
                rw [if_neg (by simp [hok])] at hop3
                simp only [List.mem_cons, List.not_mem_nil, or_false] at hop3
                rcases hop3 with h | h <;> (rw [h]; rfl)
            | none =>
              have hop3 : op2 ∈ [EtlOp.logAttachmentFailure key ""] := hop2
              simp only [List.mem_cons, List.not_mem_nil, or_false] at hop3
              rw [hop3]; rfl
            | num n =>
              have hop3 : op2 ∈ [EtlOp.logAttachmentFailure key ""] := hop2
              simp only [List.mem_cons, List.not_mem_nil, or_false] at hop3
              rw [hop3]; rfl
            | list xs =>
              have hop3 : op2 ∈ [EtlOp.logAttachmentFailure key ""] := hop2
              simp only [List.mem_cons, List.not_mem_nil, or_false] at hop3
              rw [hop3]; rfl
            | dict d =>
              have hop3 : op2 ∈ [EtlOp.logAttachmentFailure key ""] := hop2
              simp only [List.mem_cons, List.not_mem_nil, or_false] at hop3
              rw [hop3]; rfl
          | none =>
            cases nameV <;>
              (have hop3 : op2 ∈ [EtlOp.logAttachmentFailure key ""] := hop2
               simp only [List.mem_cons, List.not_mem_nil, or_false] at hop3
               rw [hop3]; rfl)
          | num n =>
            cases nameV <;>
              (have hop3 : op2 ∈ [EtlOp.logAttachmentFailure key ""] := hop2
               simp only [List.mem_cons, List.not_mem_nil, or_false] at hop3
               rw [hop3]; rfl)
          | list xs =>
            cases nameV <;>
              (have hop3 : op2 ∈ [EtlOp.logAttachmentFailure key ""] := hop2
               simp only [List.mem_cons, List.not_mem_nil, or_false] at hop3
               rw [hop3]; rfl)
          | dict d =>
            cases nameV <;>
              (have hop3 : op2 ∈ [EtlOp.logAttachmentFailure key ""] := hop2
               simp only [List.mem_cons, List.not_mem_nil, or_false] at hop3
               rw [hop3]; rfl)
        simp only [List.mem_append] at hop
        rcases hop with h | h
        · exact hthis op h
        · exact ih op h

theorem save_issue_recordOps (srv : JiraServer) (issue : PyVal) :
    ∀ op ∈ (save_issue srv issue).1, isPageOp op = true := by
  intro op hop
  cases issue with
  | dict l =>
    simp only [save_issue] at hop
    cases hk : (dlookup l "key").getD .none with
    | str key =>
      rw [hk] at hop
      simp only [] at hop
      cases hg : pyGet ((dlookup l "fields").getD (.dict [])) "attachment" (.list []) with
      | error e =>
        rw [hg] at hop
        simp only [List.mem_singleton] at hop
        rw [hop]; rfl
      | ok attachments =>
        rw [hg] at hop
        simp only [] at hop
        by_cases ht : truthy attachments = true
        · rw [if_pos ht] at hop
          cases attachments with
          | list atts =>
            simp only [List.cons_append, List.nil_append, List.mem_cons] at hop
            rcases hop with h | h
            · rw [h]; rfl
            · exact download_attachments_recordOps srv key atts op h
          | none => exact absurd ht (by simp [truthy])
          | str s =>
            simp only [List.mem_singleton] at hop
            rw [hop]; rfl
          | num n =>
            simp only [List.mem_singleton] at hop
            rw [hop]; rfl
          | dict d =>
            simp only [List.mem_singleton] at hop
            rw [hop]; rfl
        · rw [if_neg ht] at hop
          simp only [List.cons_append, List.nil_append, List.mem_cons,
            List.mem_singleton, List.not_mem_nil, or_false] at hop
          rcases hop with h | h <;> (rw [h]; rfl)
    | none => rw [hk] at hop; exact absurd hop (by simp)
    | num n => rw [hk] at hop; exact absurd hop (by simp)
    | list xs => rw [hk] at hop; exact absurd hop (by simp)
    | dict d => rw [hk] at hop; exact absurd hop (by simp)
  | none => exact absurd hop (by simp [save_issue])
  | str s => exact absurd hop (by simp [save_issue])
  | num n => exact absurd hop (by simp [save_issue])
  | list xs => exact absurd hop (by simp [save_issue])

theorem processIssues_recordOps (srv : JiraServer) (md : PyVal) :
    ∀ issues, ∀ op ∈ (processIssues srv md issues).1, isPageOp op = true := by
  intro issues
  induction issues with
  | nil => intro op hop; exact absurd hop (by simp [processIssues])
  | cons issue rest ih =>
    intro op hop
    unfold processIssues at hop
    cases he : transform_issue issue md with
    | mk tIssue err =>
      cases err with
      | some e => rw [he] at hop; exact absurd hop (by simp)
      | none =>
        rw [he] at hop
        simp only [] at hop
        cases hs : (save_issue srv tIssue).2 with
        | some e =>
          rw [hs] at hop
          exact save_issue_recordOps srv tIssue op hop
        | none =>
          rw [hs] at hop
          simp only [List.mem_append] at hop
          rcases hop with h | h
          · exact save_issue_recordOps srv tIssue op h
          · exact ih op h

theorem run_batch_count_fetchMeta (cfg : EtlConfig) (srv : JiraServer) (start : Nat) :
    (run_batch cfg srv start).1.count EtlOp.fetchMeta = 1 := by
  unfold run_batch
  simp only [List.count_cons]
  rw [List.count_eq_zero.mpr ?h]
  · rfl
  case h =>
    intro hmem
    have := processIssues_recordOps srv srv.metadata _ _ hmem
    exact absurd this (by decide)

theorem run_batch_filter_fetchPage (cfg : EtlConfig) (srv : JiraServer) (start : Nat) :
    (run_batch cfg srv start).1.filter isFetchPage =
      [EtlOp.fetchPage start cfg.BATCH_SIZE] := by
  unfold run_batch
  rw [show ((EtlOp.fetchMeta :: EtlOp.fetchPage start cfg.BATCH_SIZE ::
      (processIssues srv srv.metadata (batchSlice srv start cfg.BATCH_SIZE)).1).filter
        isFetchPage) =
      EtlOp.fetchPage start cfg.BATCH_SIZE ::
      ((processIssues srv srv.metadata (batchSlice srv start cfg.BATCH_SIZE)).1.filter
        isFetchPage) from rfl]
  rw [List.filter_eq_nil_iff.mpr ?h]
  case h =>
    intro op hop
    have := processIssues_recordOps srv srv.metadata _ op hop
    cases op <;> simp_all [isPageOp, isFetchPage]

theorem units_flatten_count (cfg : EtlConfig) (srv : JiraServer) :
    ∀ ns : List Nat,
    (((ns.map (fun i => run_batch cfg srv (i * cfg.BATCH_SIZE))).map
      Prod.fst).flatten).count EtlOp.fetchMeta = ns.length := by
  intro ns
  induction ns with
  | nil => rfl
  | cons i rest ih =>
    simp only [List.map_cons, List.flatten_cons, List.count_append, ih,
      run_batch_count_fetchMeta, List.length_cons]
    omega

theorem units_flatten_filter (cfg : EtlConfig) (srv : JiraServer) :
    ∀ ns : List Nat,
    (((ns.map (fun i => run_batch cfg srv (i * cfg.BATCH_SIZE))).map
      Prod.fst).flatten).filter isFetchPage =
      ns.map (fun i => EtlOp.fetchPage (i * cfg.BATCH_SIZE) cfg.BATCH_SIZE) := by
  intro ns
  induction ns with
  | nil => rfl
  | cons i rest ih =>
    simp only [List.map_cons, List.flatten_cons, List.filter_append, ih,
      run_batch_filter_fetchPage]
    rfl

/-- C1 counterexample: on the 120-issue project with page size 50, one run
fetches the field metadata catalog three times — once per page unit, not once
per run — and already the page unit at offset 0 triggers its own catalog
fetch. -/
theorem claimC1_counterexample :
    (pipeline_run demoConfig demoServer).1.count EtlOp.fetchMeta = 3
    ∧ ¬ (pipeline_run demoConfig demoServer).1.count EtlOp.fetchMeta = 1
    ∧ (run_batch demoConfig demoServer 0).1.count EtlOp.fetchMeta = 1 := by
  refine ⟨?_, ?_, run_batch_count_fetchMeta demoConfig demoServer 0⟩
  · rw [show (pipeline_run demoConfig demoServer).1.count EtlOp.fetchMeta =
      (List.range (iterations demoConfig demoServer)).length from ?_]
    · rfl
    · unfold pipeline_run
      simp only [List.count_cons]
      rw [units_flatten_count demoConfig demoServer]
      simp
  · intro h
    rw [show (pipeline_run demoConfig demoServer).1.count EtlOp.fetchMeta =
      (List.range (iterations demoConfig demoServer)).length from ?_] at h
    · exact absurd h (by decide)
    · unfold pipeline_run
      simp only [List.count_cons]
      rw [units_flatten_count demoConfig demoServer]
      simp

/-- C1 amended: the catalog is fetched once per page unit, not once per run:
every page unit's trace contains exactly one catalog fetch (used for every
record of that unit), so a run with `n` page units fetches the catalog `n`
times. -/
theorem claimC1 (cfg : EtlConfig) (srv : JiraServer) (hsz : 0 < cfg.BATCH_SIZE) :
    (pipeline_run cfg srv).1.count EtlOp.fetchMeta = iterations cfg srv
    ∧ ∀ start, (run_batch cfg srv start).1.count EtlOp.fetchMeta = 1 := by
  refine ⟨?_, fun start => run_batch_count_fetchMeta cfg srv start⟩
  unfold pipeline_run
  simp only [List.count_cons]
  rw [units_flatten_count cfg srv]
  simp

/-- C1 witness: the amended statement at the 120-issue demo project. -/
theorem claimC1_witness :
    (pipeline_run demoConfig demoServer).1.count EtlOp.fetchMeta =
      iterations demoConfig demoServer :=
  (claimC1 demoConfig demoServer (by decide)).1

/-- C2 counterexample: the only fetch issued for the last page (offset 100) of
the 120-record, page-size-50 example carries `maxResults = 50`, not a request
bounded by 20: the orchestrator passes the fixed page size to every page
including the last. -/
theorem claimC2_counterexample :
    (pipeline_run demoConfig demoServer).1.filter
      (fun op => match op with
        | EtlOp.fetchPage s _ => decide (s = 100)
        | _ => false) = [EtlOp.fetchPage 100 50]
    ∧ ¬ (50 ≤ 20) := by
  constructor
  · rw [show (100 : Nat) = 2 * demoConfig.BATCH_SIZE from rfl,
      show (50 : Nat) = demoConfig.BATCH_SIZE from rfl]
    decide
  · decide

/-- C2 amended: the run issues exactly one page fetch per offset
`0, pageSize, ..., (pageCount-1)*pageSize` with `pageCount =
ceil(total/pageSize)`, each carrying `maxResults = pageSize`; for `total =
120`, `pageSize = 50` the page count is 3 with offsets 0, 50, 100, and the
last page's fetch passes `maxResults = 50` but can receive at most the 20
records remaining past offset 100. -/
theorem claimC2 (cfg : EtlConfig) (srv : JiraServer) (hsz : 0 < cfg.BATCH_SIZE) :
    (pipeline_run cfg srv).1.filter isFetchPage =
      (List.range (iterations cfg srv)).map
        (fun i => EtlOp.fetchPage (i * cfg.BATCH_SIZE) cfg.BATCH_SIZE)
    ∧ (srv.issues.length = 120 → cfg.BATCH_SIZE = 50 →
        iterations cfg srv = 3
        ∧ (List.range (iterations cfg srv)).map (fun i => i * cfg.BATCH_SIZE) =
            [0, 50, 100]
        ∧ (batchSlice srv 100 50).length = 20) := by
  constructor
  · unfold pipeline_run
    simp only [List.filter_cons]
    rw [show isFetchPage EtlOp.countTotal = false from rfl]
    simp only [Bool.false_eq_true, if_false, ite_false]
    exact units_flatten_filter cfg srv (List.range (iterations cfg srv))
  · intro h120 h50
    have hit : iterations cfg srv = 3 := by
      unfold iterations countTotalIussues ceilDiv
      rw [h120, h50]
    refine ⟨hit, ?_, ?_⟩
    · rw [hit, h50]
      rfl
    · unfold batchSlice
      rw [List.length_take, List.length_drop, h120]
      rfl

/-- C2 witness: the amended statement instantiated on the demo project. -/
theorem claimC2_witness :
    iterations demoConfig demoServer = 3
    ∧ (batchSlice demoServer 100 50).length = 20 := by
  have h := (claimC2 demoConfig demoServer (by decide)).2
    (by simp [demoServer]) rfl
  exact ⟨h.1, h.2.2⟩

/-! ### Attachment-failure isolation (load layer) -/

theorem download_attachments_wf (srv : JiraServer) (key : String) :
    ∀ atts : List PyVal,
    (∀ att ∈ atts, ∃ d u n, att = .dict d
      ∧ dlookup d "content" = some (.str u)
      ∧ dlookup d "filename" = some (.str n)) →
    (download_attachments srv key atts).2 = Option.none
    ∧ (∀ att ∈ atts, ∀ d u n, att = .dict d →
        dlookup d "content" = some (.str u) →
        dlookup d "filename" = some (.str n) →
        EtlOp.attemptAttachment key u ∈ (download_attachments srv key atts).1
        ∧ (srv.attachmentOk u = true →
            EtlOp.wroteAttachment key n ∈ (download_attachments srv key atts).1)
        ∧ (srv.attachmentOk u = false →
            EtlOp.logAttachmentFailure key n ∈ (download_attachments srv key atts).1)) := by
  intro atts
  induction atts with
  | nil =>
    intro _
    exact ⟨rfl, fun att hatt => absurd hatt (List.not_mem_nil att)⟩
  | cons att rest ih =>
    intro hwf
    obtain ⟨d0, u0, n0, hd0, hc0, hn0⟩ := hwf att (List.mem_cons_self att rest)
    obtain ⟨ih2, ih3⟩ := ih (fun a ha => hwf a (List.mem_cons_of_mem att ha))
    have heq : download_attachments srv key (att :: rest) =
        ((if srv.attachmentOk u0 = true then
            [EtlOp.attemptAttachment key u0, EtlOp.wroteAttachment key n0]
          else
            [EtlOp.attemptAttachment key u0, EtlOp.logAttachmentFailure key n0])
          ++ (download_attachments srv key rest).1,
         (download_attachments srv key rest).2) := by
      have h1 : dindex (.dict d0) "content" = .ok (.str u0) := by
        simp [dindex, hc0]
      have h2 : dindex (.dict d0) "filename" = .ok (.str n0) := by
        simp [dindex, hn0]
      rw [hd0]
      conv_lhs => unfold download_attachments
      rw [h1, h2]
    refine ⟨by rw [heq]; exact ih2, ?_⟩
    intro a ha d u n hda hcu hnn
    rcases List.mem_cons.mp ha with hhead | htail
    · subst hhead
      rw [hda] at hd0
      injection hd0 with hdd
      subst hdd
      rw [hc0] at hcu
      injection hcu with hcu2
      injection hcu2 with huu
      subst huu
      rw [hn0] at hnn
      injection hnn with hnn2
      injection hnn2 with hnn3
      subst hnn3
      cases hok : srv.attachmentOk u0 with
      | true =>
        rw [heq, if_pos hok]
        refine ⟨List.mem_append_left _ (List.mem_cons_self _ _), fun _ => ?_, ?_⟩
        · exact List.mem_append_left _
            (List.mem_cons_of_mem _ (List.mem_cons_self _ _))
        · intro hcon; exact absurd hcon (by decide)
      | false =>
        rw [heq, if_neg (by simp [hok])]
        refine ⟨List.mem_append_left _ (List.mem_cons_self _ _), ?_, fun _ => ?_⟩
        · intro hcon; exact absurd hcon (by decide)
        · exact List.mem_append_left _
            (List.mem_cons_of_mem _ (List.mem_cons_self _ _))
    · have hr := ih3 a htail d u n hda hcu hnn
      rw [heq]
      refine ⟨List.mem_append_right _ hr.1, fun hok => ?_, fun hok => ?_⟩
      · exact List.mem_append_right _ (hr.2.1 hok)
      · exact List.mem_append_right _ (hr.2.2 hok)

theorem download_attachments_snd_oracle (srv1 srv2 : JiraServer) (key : String) :
    ∀ atts, (download_attachments srv1 key atts).2 =
      (download_attachments srv2 key atts).2 := by
  intro atts
  induction atts with
  | nil => rfl
  | cons att rest ih =>
    unfold download_attachments
    cases hc : dindex att "content" with
    | error e => rfl
    | ok url =>
      cases hn : dindex att "filename" with
      | error e => rfl
      | ok nameV => exact ih

theorem save_issue_snd_oracle (srv1 srv2 : JiraServer) (issue : PyVal) :
    (save_issue srv1 issue).2 = (save_issue srv2 issue).2 := by
  cases issue with
  | dict l =>
    simp only [save_issue]
    split <;> try rfl
    split <;> try rfl
    split <;> try rfl
    split <;> try rfl
    exact download_attachments_snd_oracle srv1 srv2 _ _
  | none => rfl
  | str s => rfl
  | num n => rfl
  | list xs => rfl

theorem processIssues_snd_oracle (srv1 srv2 : JiraServer) (md : PyVal) :
    ∀ issues, (processIssues srv1 md issues).2 =
      (processIssues srv2 md issues).2 := by
  intro issues
  induction issues with
  | nil => rfl
  | cons issue rest ih =>
    unfold processIssues
    cases he : transform_issue issue md with
    | mk tIssue err =>
      cases err with
      | some e => rfl
      | none =>
        have hss := save_issue_snd_oracle srv1 srv2 tIssue
        show (match (save_issue srv1 tIssue).2 with
            | some e => ((save_issue srv1 tIssue).1, some e)
            | Option.none =>
              ((save_issue srv1 tIssue).1 ++ (processIssues srv1 md rest).1,
               (processIssues srv1 md rest).2)).2 =
          (match (save_issue srv2 tIssue).2 with
            | some e => ((save_issue srv2 tIssue).1, some e)
            | Option.none =>
              ((save_issue srv2 tIssue).1 ++ (processIssues srv2 md rest).1,
               (processIssues srv2 md rest).2)).2
        cases hs : (save_issue srv1 tIssue).2 with
        | some e =>
          rw [hs] at hss
          rw [← hss]
        | none =>
          rw [hs] at hss
          rw [← hss]
          exact ih

/-- C8: a failure while downloading one attachment is swallowed (and logged):
the record's own save never raises, its JSON document is written before any
download is attempted, every sibling attachment is still attempted and every
succeeding one is still written; and, for any page unit, whether the unit
fails is entirely independent of the attachment-download outcomes. -/
theorem claimC8 (srv : JiraServer) (l f : List (String × PyVal)) (key : String)
    (atts : List PyVal)
    (hkey : dlookup l "key" = some (.str key))
    (hfields : dlookup l "fields" = some (.dict f))
    (hatt : dlookup f "attachment" = some (.list atts))
    (hne : ¬ atts = [])
    (hwf : ∀ att ∈ atts, ∃ d u n, att = .dict d
      ∧ dlookup d "content" = some (.str u)
      ∧ dlookup d "filename" = some (.str n)) :
    (save_issue srv (.dict l)).2 = Option.none
    ∧ (save_issue srv (.dict l)).1.head? = some (EtlOp.wroteJson key)
    ∧ (∀ att ∈ atts, ∀ d u n, att = .dict d →
        dlookup d "content" = some (.str u) →
        dlookup d "filename" = some (.str n) →
        EtlOp.attemptAttachment key u ∈ (save_issue srv (.dict l)).1
        ∧ (srv.attachmentOk u = true →
            EtlOp.wroteAttachment key n ∈ (save_issue srv (.dict l)).1)
        ∧ (srv.attachmentOk u = false →
            EtlOp.logAttachmentFailure key n ∈ (save_issue srv (.dict l)).1))
    ∧ (∀ cfg : EtlConfig, ∀ issues : List PyVal, ∀ md : PyVal,
        ∀ g1 g2 : String → Bool, ∀ start : Nat,
        (run_batch cfg { issues := issues, metadata := md, attachmentOk := g1 } start).2 =
        (run_batch cfg { issues := issues, metadata := md, attachmentOk := g2 } start).2) := by
  have hsave : save_issue srv (.dict l) =
      (EtlOp.wroteJson key :: (download_attachments srv key atts).1,
       (download_attachments srv key atts).2) := by
    simp only [save_issue, hkey, Option.getD_some, hfields, pyGet, hatt]
    rw [if_pos (by simp [truthy, hne])]
    rfl
  obtain ⟨hd2, hd3⟩ := download_attachments_wf srv key atts hwf
  refine ⟨by rw [hsave]; exact hd2, by rw [hsave]; rfl, ?_, ?_⟩
  · intro att hatt2 d u n hda hcu hnn
    have hr := hd3 att hatt2 d u n hda hcu hnn
    rw [hsave]
    refine ⟨List.mem_cons_of_mem _ hr.1, fun hok => ?_, fun hok => ?_⟩
    · exact List.mem_cons_of_mem _ (hr.2.1 hok)
    · exact List.mem_cons_of_mem _ (hr.2.2 hok)
  · intro cfg issues md g1 g2 start
    unfold run_batch
    exact processIssues_snd_oracle
      { issues := issues, metadata := md, attachmentOk := g1 }
      { issues := issues, metadata := md, attachmentOk := g2 } md _

/-- C8 witness: a record with two attachments, an oracle failing on the first
URL and succeeding on the second: the save does not fail, the JSON write comes
first, the failed download is logged, and the sibling is still written. -/
theorem claimC8_witness :
    ((save_issue
        { issues := [], metadata := .list [], attachmentOk := fun u => u == "good" }
        (.dict [("key", .str "K"),
                ("fields", .dict [("attachment", .list
                  [.dict [("content", .str "bad"), ("filename", .str "f1")],
                   .dict [("content", .str "good"), ("filename", .str "f2")]])])])).2 =
       Option.none)
    ∧ EtlOp.logAttachmentFailure "K" "f1" ∈
        (save_issue
          { issues := [], metadata := .list [], attachmentOk := fun u => u == "good" }
          (.dict [("key", .str "K"),
                  ("fields", .dict [("attachment", .list
                    [.dict [("content", .str "bad"), ("filename", .str "f1")],
                     .dict [("content", .str "good"), ("filename", .str "f2")]])])])).1
    ∧ EtlOp.wroteAttachment "K" "f2" ∈
        (save_issue
          { issues := [], metadata := .list [], attachmentOk := fun u => u == "good" }
          (.dict [("key", .str "K"),
                  ("fields", .dict [("attachment", .list
                    [.dict [("content", .str "bad"), ("filename", .str "f1")],
                     .dict [("content", .str "good"), ("filename", .str "f2")]])])])).1 := by
  have h := claimC8
    { issues := [], metadata := .list [], attachmentOk := fun u => u == "good" }
    [("key", .str "K"),
     ("fields", .dict [("attachment", .list
       [.dict [("content", .str "bad"), ("filename", .str "f1")],
        .dict [("content", .str "good"), ("filename", .str "f2")]])])]
    [("attachment", .list
       [.dict [("content", .str "bad"), ("filename", .str "f1")],
        .dict [("content", .str "good"), ("filename", .str "f2")]])]
    "K"
    [.dict [("content", .str "bad"), ("filename", .str "f1")],
     .dict [("content", .str "good"), ("filename", .str "f2")]]
    rfl rfl rfl (by simp) ?hwf
  case hwf =>
    intro att hatt
    rcases List.mem_cons.mp hatt with h1 | h1
    · exact ⟨_, "bad", "f1", h1, rfl, rfl⟩
    · rcases List.mem_cons.mp h1 with h2 | h2
      · exact ⟨_, "good", "f2", h2, rfl, rfl⟩
      · exact absurd h2 (List.not_mem_nil att)
  refine ⟨h.1, ?_, ?_⟩
  · exact (h.2.2.1 _ (List.mem_cons_self _ _) _ "bad" "f1" rfl rfl rfl).2.2 rfl
  · exact (h.2.2.1 _ (List.mem_cons_of_mem _ (List.mem_cons_self _ _))
      _ "good" "f2" rfl rfl rfl).2.1 rfl

end ETLJira
